import Mathlib

/-!
Verification of the TreeReduce_vs_AllReduce global-termination protocols.

The definitions below are a shallow embedding of the C sources:
  * src/global_done_hstar.c  (H-STAR: multi-level fan-in / fan-out)
  * src/global_done_star.c   (flat STAR)
  * src/global_done_tree_dynamic.c (dynamic-leader variant)

C `int` arithmetic on PE counts, group sizes and indices is modelled by `Nat`
(all quantities involved are small and non-negative in every run; the sources
never rely on overflow).  The value DONE_SENTINEL (-1 in the sources, with 0
meaning "not done") is modelled by `true` in a `Bool`-valued store, so that the
protocol order 0 -> DONE_SENTINEL is the order `false < true`.
-/


/-! ### Topology planner (src/global_done_hstar.c lines 93-133) -/

/-- `static inline int ceil_div(int a, int b) { return (a + b - 1) / b; }`
(global_done_hstar.c line 93). -/
def ceil_div (a b : ℕ) : ℕ := (a + b - 1) / b

/-- `static inline int ipow(int base, int exp)` (global_done_hstar.c lines
96-100): `r = 1; while (exp-- > 0) r *= base;`. -/
def ipow (base : ℕ) : ℕ → ℕ
  | 0 => 1
  | e + 1 => base * ipow base e

/-- `group_span_at_level(leaf_size, level) = leaf_size * ipow(K, level)`
(global_done_hstar.c lines 104-106).  The C global `K` is passed explicitly. -/
def group_span_at_level (K leaf_size level : ℕ) : ℕ := leaf_size * ipow K level

/-- `static_group_owner_pe(leaf_size, level, group_idx) =
group_idx * group_span_at_level(leaf_size, level)` (global_done_hstar.c
lines 110-112). -/
def static_group_owner_pe (K leaf_size level group_idx : ℕ) : ℕ :=
  group_idx * group_span_at_level K leaf_size level

/-- The per-level group counts computed by `compute_levels_and_groups`
(global_done_hstar.c lines 117-133): `NUM_GROUPS[0] = ceil_div(npes, G_LEAF)`
and `NUM_GROUPS[l] = ceil_div(NUM_GROUPS[l-1], K)`.  The C code stores the
first `LEVELS` values in an array; the function below computes the same
recurrence for every level index. -/
def NUM_GROUPS (N G K : ℕ) : ℕ → ℕ
  | 0 => ceil_div N G
  | l + 1 => ceil_div (NUM_GROUPS N G K l) K

/-- The level-counting loop of `compute_levels_and_groups` (global_done_hstar.c
lines 119-122): `levels = 1; prev = ng0; while (prev > 1) { prev =
ceil_div(prev, K); levels++; }`.  The C loop terminates because `K >= 2` always
holds at the call site (env_branch_k guarantees it); here the iteration count
is bounded by an explicit fuel argument, which is sufficient for any `K >= 2`
(each iteration strictly decreases `prev`). -/
def level_count_loop (K : ℕ) : ℕ → ℕ → ℕ
  | 0, _ => 1
  | fuel + 1, prev => if 1 < prev then 1 + level_count_loop K fuel (ceil_div prev K) else 1

/-- `LEVELS` as computed by `compute_levels_and_groups(npes)` for
`G_LEAF = G` and branch factor `K`. -/
def LEVELS (N G K : ℕ) : ℕ := level_count_loop K (ceil_div N G) (ceil_div N G)

/-- `ceil_div`-iterates: `cd_iter K l p` applies `fun x => ceil_div x K` to `p`
`l` times.  `NUM_GROUPS N G K l = cd_iter K l (ceil_div N G)`. -/
def cd_iter (K : ℕ) : ℕ → ℕ → ℕ
  | 0, p => p
  | l + 1, p => ceil_div (cd_iter K l p) K

/-! ### H-STAR protocol state and per-PE programs (src/global_done_hstar.c lines 194-326)

Every symmetric slot of the H-STAR protocol is modelled by a `Loc`:
`mail l g i` is `LVL_CHILD_DONE[l][g][i]` (hosted at the owner of group `g` at
level `l`; level 0 aliases `GROUP_PE_DONE`), `token l g` is
`LVL_BCAST_TOKEN[l][g]`, and `gate pe` is PE `pe`'s copy of
`GLOBAL_TERMINATION_READY`.  A slot holds `true` once DONE_SENTINEL (-1) has
been written to it and `false` (the 0 initialization) before. -/

inductive Loc where
  | mail (l g i : ℕ)
  | token (l g : ℕ)
  | gate (pe : ℕ)
deriving DecidableEq

/-- A protocol step of one PE: a remote/local store of DONE_SENTINEL
(`shmem_int_p` or a local `= -1` store) or a blocking
`shmem_int_wait_until(.., SHMEM_CMP_EQ, -1)`. -/
inductive Instr where
  | write (loc : Loc)
  | wait (loc : Loc)
deriving DecidableEq

/-- The actual child count `gsize` computed by `run_hstar_termination` for the
owner of group `g` at level `l` (global_done_hstar.c lines 219-233; the same
expression is recomputed for the downward fan-out at lines 289-292).
At `l = 0`: `start = owner; end = min(start + G_LEAF, npes); gsize = end - start`.
At `l >= 1`: `gsize = (g*K + K <= NUM_GROUPS[l-1]) ? K : NUM_GROUPS[l-1] - g*K`,
clamped at 0 (`Nat` subtraction performs the same clamp as the C code's
`if (gsize < 0) gsize = 0;`). -/
def gsize (N G K l g : ℕ) : ℕ :=
  if l = 0 then
    min (static_group_owner_pe K G 0 g + G) N - static_group_owner_pe K G 0 g
  else
    if g * K + K ≤ NUM_GROUPS N G K (l - 1) then K else NUM_GROUPS N G K (l - 1) - g * K

/-- The level-`l` iteration of the upward fan-in loop (global_done_hstar.c
lines 211-250) as executed by PE `me`: owners wait on their `gsize` child
mailbox slots, then (below the top) put DONE_SENTINEL into their slot of the
parent owner's mailbox. -/
def faninStep (N G K me l : ℕ) : List Instr :=
  let g := me / group_span_at_level K G l
  if me = static_group_owner_pe K G l g then
    ((List.range (gsize N G K l g)).map fun i => Instr.wait (Loc.mail l g i))
    ++ (if l + 1 < LEVELS N G K then
          [Instr.write (Loc.mail (l + 1) (g / K) (g % K))]
        else [])
  else []

/-- The level-`l` iteration of the downward fan-out loop (global_done_hstar.c
lines 278-315) as executed by PE `me`: owners wait on their group's broadcast
token, then forward it to the owners of their child groups (`l > 0`) or set
each member PE's gate (`l = 0`).  The member range at `l = 0` is
`[owner, min(owner + G_LEAF, npes))`, written as owner-relative offsets. -/
def fanoutStep (N G K me l : ℕ) : List Instr :=
  let g := me / group_span_at_level K G l
  if me = static_group_owner_pe K G l g then
    Instr.wait (Loc.token l g) ::
    (if 0 < l then
       (List.range (gsize N G K l g)).map fun c => Instr.write (Loc.token (l - 1) (g * K + c))
     else
       (List.range (min (static_group_owner_pe K G l g + G) N - static_group_owner_pe K G l g)).map
         fun j => Instr.write (Loc.gate (static_group_owner_pe K G l g + j)))
  else []

/-- The whole of `run_hstar_termination` (global_done_hstar.c lines 194-326)
as executed by PE `me`, as a straight-line list of protocol instructions:
leaf publish (lines 199-208), upward fan-in (lines 211-250), root seeding of
the top-level token (lines 253-274, `ROOT_PE = 0`; the timing aggregation
reads `ELAPSED_MS`, which is not protocol state), downward fan-out
(lines 278-315, levels iterated from `LEVELS-1` down to `0`), and the final
wait on the local gate (line 318). -/
def hstarProgram (N G K me : ℕ) : List Instr :=
  [Instr.write (Loc.mail 0 (me / G) (me % G))]
  ++ (List.range (LEVELS N G K)).flatMap (faninStep N G K me)
  ++ (if me = 0 then [Instr.write (Loc.token (LEVELS N G K - 1) 0)] else [])
  ++ ((List.range (LEVELS N G K)).reverse.flatMap (fanoutStep N G K me))
  ++ [Instr.wait (Loc.gate me)]

/-- A global protocol state: one program counter per PE and the Boolean view
of every symmetric slot (`false` = 0, `true` = DONE_SENTINEL). -/
structure HState where
  pc : ℕ → ℕ
  done : Loc → Bool

/-- All slots are initialized to 0 and no PE has executed anything. -/
def initState : HState := ⟨fun _ => 0, fun _ => false⟩

def bumpPC (s : HState) (p : ℕ) : HState :=
  ⟨fun q => if q = p then s.pc q + 1 else s.pc q, s.done⟩

def setDone (s : HState) (loc : Loc) : HState :=
  ⟨s.pc, fun x => if x = loc then true else s.done x⟩

/-- Interleaving semantics: some PE `p < N` executes its next instruction.
A store takes effect immediately (one-sided put; `shmem_quiet` only
strengthens ordering, which the safety argument does not need), and a
`wait_until` can only complete when the waited slot already holds
DONE_SENTINEL. -/
inductive Step (N G K : ℕ) : HState → HState → Prop where
  | write (s : HState) (p : ℕ) (loc : Loc) (hp : p < N)
      (hinstr : (hstarProgram N G K p).get? (s.pc p) = some (Instr.write loc)) :
      Step N G K s (setDone (bumpPC s p) loc)
  | wait (s : HState) (p : ℕ) (loc : Loc) (hp : p < N)
      (hinstr : (hstarProgram N G K p).get? (s.pc p) = some (Instr.wait loc))
      (hdone : s.done loc = true) :
      Step N G K s (bumpPC s p)

/-- The reachable execution states of the H-STAR protocol. -/
def Reach (N G K : ℕ) (s : HState) : Prop :=
  Relation.ReflTransGen (Step N G K) initState s

/-! ### Coverage: which PEs a mailbox slot accounts for

`cov l g i` is the set of PEs whose leaf publishes are (transitively)
certified by slot `child_mailbox[l][g][i]` holding DONE_SENTINEL: at `l = 0`
the single member PE `g*G + i`; at `l >= 1` the PE range of child group
`g*K + i` at level `l-1` (clipped to the existing PEs `< N`). -/

def cov (N G K l g i : ℕ) : Set ℕ :=
  if l = 0 then
    Set.Ico (g * G + i) (min (g * G + i + 1) N)
  else
    Set.Ico ((g * K + i) * group_span_at_level K G (l - 1))
      (min ((g * K + i + 1) * group_span_at_level K G (l - 1)) N)

/-! ### Write justification: every DONE store in a PE's program is covered by
the waits that precede it in that program. -/

/-- The set of locations a list of instructions waits on. -/
def waitLocs : List Instr → Set Loc
  | [] => ∅
  | Instr.wait loc :: r => insert loc (waitLocs r)
  | Instr.write _ :: r => waitLocs r

/-- The PEs accounted for by a location holding DONE_SENTINEL (mailbox slots
only; tokens and gates certify all PEs, handled separately). -/
def covOf (N G K : ℕ) : Loc → Set ℕ
  | Loc.mail l g i => cov N G K l g i
  | Loc.token _ _ => ∅
  | Loc.gate _ => ∅

def covUnionOf (N G K : ℕ) (S : Set Loc) : Set ℕ := ⋃ loc ∈ S, covOf N G K loc

def hasTokenIn (S : Set Loc) : Prop := ∃ l g, Loc.token l g ∈ S

/-- `WriteOK p S loc`: writing DONE_SENTINEL to `loc` is justified for PE `p`
when all locations in `S` have been observed as DONE: a mailbox write must be
covered by `p` itself plus the coverage of observed mailbox slots; a token or
gate write must follow either an observed token or observed mailbox slots
covering every PE. -/
def WriteOK (N G K p : ℕ) (S : Set Loc) : Loc → Prop
  | Loc.mail l g i => cov N G K l g i ⊆ insert p (covUnionOf N G K S)
  | Loc.token _ _ => hasTokenIn S ∨ Set.Ico 0 N ⊆ covUnionOf N G K S
  | Loc.gate _ => hasTokenIn S ∨ Set.Ico 0 N ⊆ covUnionOf N G K S

/-- `ProgOK p L S`: every write in `L` is justified by `S` together with the
waits preceding it inside `L`. -/
def ProgOK (N G K p : ℕ) : List Instr → Set Loc → Prop
  | [], _ => True
  | Instr.wait loc :: rest, S => ProgOK N G K p rest (insert loc S)
  | Instr.write loc :: rest, S => WriteOK N G K p S loc ∧ ProgOK N G K p rest S

/-! ### The inductive invariant of the H-STAR execution system -/

/-- All PEs have executed their leaf publish (instruction 0 of every PE's
program). -/
def published (N : ℕ) (s : HState) : Prop := ∀ q, q < N → 1 ≤ s.pc q

/-- The inductive invariant: every wait a PE has passed (and every write it
has issued) is recorded DONE; a DONE mailbox slot certifies the leaf
publishes of all PEs it covers; a DONE token or gate certifies the leaf
publishes of all PEs. -/
structure HInv (N G K : ℕ) (s : HState) : Prop where
  waitsDone : ∀ p, p < N →
    ∀ loc ∈ waitLocs ((hstarProgram N G K p).take (s.pc p)), s.done loc = true
  writesDone : ∀ p, p < N →
    ∀ loc, Instr.write loc ∈ (hstarProgram N G K p).take (s.pc p) → s.done loc = true
  mailDone : ∀ l g i, s.done (Loc.mail l g i) = true → ∀ q ∈ cov N G K l g i, 1 ≤ s.pc q
  tokenDone : ∀ l g, s.done (Loc.token l g) = true → published N s
  gateDone : ∀ q, s.done (Loc.gate q) = true → published N s

/-- The states of a complete execution of the H-STAR protocol for the
configuration `N = 1`, `G = 1`, `K = 2` (one PE, which is leaf owner and
root): publish, collect, seed the token, observe it, set the gate, observe
the gate. -/
def wState1 : HState := setDone (bumpPC initState 0) (Loc.mail 0 0 0)

def wState2 : HState := bumpPC wState1 0

def wState3 : HState := setDone (bumpPC wState2 0) (Loc.token 0 0)

def wState4 : HState := bumpPC wState3 0

def wState5 : HState := setDone (bumpPC wState4 0) (Loc.gate 0)

def wState6 : HState := bumpPC wState5 0

/-! ### Dynamic-leader variant: the leaf counter loop
(src/global_done_tree_dynamic.c lines 195-225 and 230-316)

`try_mark_leaf_group_done` is called from the body of the unbounded
`while (1)` polling loop of `propagate_up_and_maybe_exit`.  Each call first
remote-reads the group's `GROUP_DONE` flag; if it is still 0 the PE
remote-atomically fetch-increments the group's `LEAF_COUNT`, and the PE whose
returned prior value equals `gsize - 1` CASes `GROUP_DONE` to 1 and stores its
id into `GROUP_LEADER`.  One leaf group of actual size `m` is modelled; the
members are indexed `0, ..., m-1`.  The read of the flag and the subsequent
increment are separate remote operations, so a member that read 0 may still
increment after the flag has been set (`armed` phase). -/

inductive DPhase where
  | idle
  | armed
  | stopped
deriving DecidableEq

structure DynState where
  counter : ℕ
  flagDone : Bool
  phase : ℕ → DPhase
  incs : ℕ → ℕ
  leader : Option ℕ

/-- `LEAF_COUNT = 0`, `GROUP_DONE = 0`, `GROUP_LEADER = -1` (modelled `none`),
no member has read the flag yet. -/
def dynInit : DynState := ⟨0, false, fun _ => DPhase.idle, fun _ => 0, none⟩

/-- One protocol event of the leaf loop: `observe p` is the remote read of
`GROUP_DONE` at the top of `try_mark_leaf_group_done` (line 208); `inc p` is
the `shmem_int_atomic_fetch_inc` on `LEAF_COUNT` (line 211) together with the
leader CAS/store when the prior value equals `m - 1` (lines 213-216). -/
inductive DynStep (m : ℕ) : DynState → DynState → Prop where
  | observe (s : DynState) (p : ℕ) (hp : p < m) (hidle : s.phase p = DPhase.idle) :
      DynStep m s
        { s with phase := fun q => if q = p then
            (if s.flagDone then DPhase.stopped else DPhase.armed) else s.phase q }
  | inc (s : DynState) (p : ℕ) (hp : p < m) (harmed : s.phase p = DPhase.armed) :
      DynStep m s
        { counter := s.counter + 1,
          flagDone := if s.counter = m - 1 then true else s.flagDone,
          phase := fun q => if q = p then DPhase.idle else s.phase q,
          incs := fun q => if q = p then s.incs q + 1 else s.incs q,
          leader := if s.counter = m - 1 then some p else s.leader }

def DynReach (m : ℕ) (s : DynState) : Prop :=
  Relation.ReflTransGen (DynStep m) dynInit s

/-- The states of a concrete schedule of the dynamic leaf loop for a group of
actual size 2 (members 0 and 1), in which member 1 reads the flag once, then
member 0 runs two full read-then-increment iterations of the polling loop,
and finally member 1 performs its pending increment. -/
def dState1 : DynState :=
  { dynInit with phase := fun q => if q = 1 then
      (if dynInit.flagDone then DPhase.stopped else DPhase.armed) else dynInit.phase q }

def dState2 : DynState :=
  { dState1 with phase := fun q => if q = 0 then
      (if dState1.flagDone then DPhase.stopped else DPhase.armed) else dState1.phase q }

def dState3 : DynState :=
  { counter := dState2.counter + 1,
    flagDone := if dState2.counter = 2 - 1 then true else dState2.flagDone,
    phase := fun q => if q = 0 then DPhase.idle else dState2.phase q,
    incs := fun q => if q = 0 then dState2.incs q + 1 else dState2.incs q,
    leader := if dState2.counter = 2 - 1 then some 0 else dState2.leader }

def dState4 : DynState :=
  { dState3 with phase := fun q => if q = 0 then
      (if dState3.flagDone then DPhase.stopped else DPhase.armed) else dState3.phase q }

def dState5 : DynState :=
  { counter := dState4.counter + 1,
    flagDone := if dState4.counter = 2 - 1 then true else dState4.flagDone,
    phase := fun q => if q = 0 then DPhase.idle else dState4.phase q,
    incs := fun q => if q = 0 then dState4.incs q + 1 else dState4.incs q,
    leader := if dState4.counter = 2 - 1 then some 0 else dState4.leader }

def dState6 : DynState :=
  { counter := dState5.counter + 1,
    flagDone := if dState5.counter = 2 - 1 then true else dState5.flagDone,
    phase := fun q => if q = 1 then DPhase.idle else dState5.phase q,
    incs := fun q => if q = 1 then dState5.incs q + 1 else dState5.incs q,
    leader := if dState5.counter = 2 - 1 then some 1 else dState5.leader }

/-! ### The top-level call sequence of `main`
(src/global_done_hstar.c lines 330-364, src/global_done_star.c lines 190-223)

Both `main` functions execute, in order: `shmem_init`; environment reads;
`shmem_barrier_all()` ("Align start for timing; not required for logic");
symmetric allocation and zero-initialization (`shmem_malloc` of
`LOCAL_DONE`/`ELAPSED_MS` plus `allocate_star_flags`); then the protocol run,
whose first action is the leaf-publish `shmem_int_p`, and whose last actions
are the wait on the local gate followed by a final `shmem_barrier_all()`.
A store by `shmem_int_p` whose target PE hosts the slot is classified by the
slot's host: remote when the host differs from the calling PE, local
otherwise (the owner's own gate store and the root's token seeding are plain
local stores in the source).  The root's remote reads of `ELAPSED_MS` for the
timing summary occur after the fan-in and are not protocol state; they are
not modelled. -/

inductive MainEv where
  | barrierAll
  | symmetricAllocInit
  | remotePut
  | localStore
  | localWait
deriving DecidableEq

/-- The PE hosting a slot: mailboxes and tokens live at the owner of their
(level, group); the gate is per-PE. -/
def locHost (K G : ℕ) : Loc → ℕ
  | Loc.mail l g _ => static_group_owner_pe K G l g
  | Loc.token l g => static_group_owner_pe K G l g
  | Loc.gate pe => pe

def instrEvent (K G me : ℕ) : Instr → MainEv
  | Instr.write loc => if locHost K G loc = me then MainEv.localStore else MainEv.remotePut
  | Instr.wait _ => MainEv.localWait

/-- The event sequence of H-STAR `main` as executed by PE `me` (the trailing
barrier is the final `shmem_barrier_all` of `run_hstar_termination`,
line 319). -/
def hstarMainEvents (N G K me : ℕ) : List MainEv :=
  [MainEv.barrierAll, MainEv.symmetricAllocInit]
  ++ (hstarProgram N G K me).map (instrEvent K G me)
  ++ [MainEv.barrierAll]

/-- The event sequence of `run_star_termination`
(src/global_done_star.c lines 105-186) as executed by PE `me`:
the publish put to the group anchor (line 121), the anchor's member waits and
its notification of the root (lines 125-143), the root's group waits and gate
broadcast (lines 146-174), and the final wait on the gate (line 177). -/
def starRunEvents (N G me : ℕ) : List MainEv :=
  [if me / G * G = me then MainEv.localStore else MainEv.remotePut]
  ++ (if me = me / G * G then
        List.replicate (min (me / G * G + G) N - me / G * G) MainEv.localWait
        ++ [if me = 0 then MainEv.localStore else MainEv.remotePut]
      else [])
  ++ (if me = 0 then
        List.replicate (ceil_div N G) MainEv.localWait
        ++ (List.range N).map (fun pe => if pe = 0 then MainEv.localStore else MainEv.remotePut)
      else [])
  ++ [MainEv.localWait]

/-- The event sequence of STAR `main` (the trailing barrier is the final
`shmem_barrier_all` of `run_star_termination`, line 180). -/
def starMainEvents (N G me : ℕ) : List MainEv :=
  [MainEv.barrierAll, MainEv.symmetricAllocInit] ++ starRunEvents N G me ++ [MainEv.barrierAll]

/-- The property asserted by the claim: some global barrier is called after
the symmetric state has been allocated and initialized and before any remote
operation is issued. -/
def barrierBetween (evs : List MainEv) : Prop :=
  ∃ j, j < evs.length ∧ evs.get? j = some MainEv.barrierAll
    ∧ (∃ i, i < j ∧ evs.get? i = some MainEv.symmetricAllocInit)
    ∧ ∀ k, k < evs.length → evs.get? k = some MainEv.remotePut → j < k

instance (evs : List MainEv) : Decidable (barrierBetween evs) := by
  unfold barrierBetween
  infer_instance

/-! ### Environment parsing
(src/global_done_hstar.c lines 71-91; the identical `env_debug_enabled` and
`env_group_size` appear in global_done_star.c lines 52-64,
global_done_original.c lines 43-49, global_done_tree.c and
global_done_tree_dynamic.c)

C strings are modelled as `List Char` (the value of `getenv`, `none` when the
variable is absent); `e[0] == '\0'` is the empty list.  `atoi` is modelled
faithfully: skip leading whitespace, optional single sign, then a maximal
run of decimal digits; no digits parse as 0.  The C `int` result is modelled
as an unbounded `ℤ` (the sources only compare it with 1 and 2; overflow on
absurdly long digit strings is undefined behavior in C and is not modelled). -/

def c_isspace (c : Char) : Bool :=
  c = ' ' || c = '\t' || c = '\n' || c = '\x0b' || c = '\x0c' || c = '\r'

def atoiDigits : ℤ → List Char → ℤ
  | acc, [] => acc
  | acc, c :: r => if c.isDigit then atoiDigits (10 * acc + (c.toNat - '0'.toNat : ℕ)) r else acc

def atoiSign (l : List Char) : ℤ :=
  match l with
  | [] => 0
  | c :: r =>
    if c = '-' then - atoiDigits 0 r
    else if c = '+' then atoiDigits 0 r
    else atoiDigits 0 (c :: r)

def c_atoi (s : List Char) : ℤ := atoiSign (s.dropWhile c_isspace)

/-- `env_group_size` (global_done_hstar.c lines 78-83): default 8 when the
variable is absent or empty; otherwise `atoi`, coerced back to 8 when the
result is `< 1`. -/
def env_group_size (e : Option (List Char)) : ℤ :=
  match e with
  | none => 8
  | some s => if s = [] then 8 else (if 1 ≤ c_atoi s then c_atoi s else 8)

/-- `env_branch_k` (global_done_hstar.c lines 86-91): default 8 when absent
or empty; otherwise `atoi`, coerced back to 8 when the result is `< 2`. -/
def env_branch_k (e : Option (List Char)) : ℤ :=
  match e with
  | none => 8
  | some s => if s = [] then 8 else (if 2 ≤ c_atoi s then c_atoi s else 8)

/-- `env_debug_enabled` (global_done_hstar.c lines 71-76; this definition is
byte-identical in all five variants): 0 when the variable is absent, empty,
or begins with the character '0'; 1 otherwise. -/
def env_debug_enabled (e : Option (List Char)) : Bool :=
  match e with
  | none => false
  | some [] => false
  | some (c :: _) => if c = '0' then false else true

/-- The sign-skipping part of `atoi`'s input view: whitespace already
dropped, one optional sign removed. -/
def afterSign (l : List Char) : List Char :=
  match l with
  | [] => []
  | c :: r => if c = '-' then r else if c = '+' then r else c :: r

/-- Modelled from the spec: a "valid numeric string" (the spec says strings
that are not one yield the default) — optional leading whitespace, an
optional single sign, then one or more decimal digits and nothing else. -/
def specValidNumeric (s : List Char) : Bool :=
  let t2 := afterSign (s.dropWhile c_isspace)
  !t2.isEmpty && t2.all Char.isDigit

/-- No parseable leading integer: the first character after whitespace and an
optional sign is absent or not a digit (`atoi` returns 0 on such strings). -/
def noParse (s : List Char) : Bool :=
  match afterSign (s.dropWhile c_isspace) with
  | [] => true
  | c :: _ => !c.isDigit

/-- The unique PE the H-STAR protocol designates to write mailbox slot
`child_mailbox[l][g][i]`: the member PE `g*G + i` at the leaf, and the owner
of child group `g*K + i` at level `l-1` above the leaf. -/
def mailWriter (G K l g i : ℕ) : ℕ :=
  if l = 0 then g * G + i else static_group_owner_pe K G (l - 1) (g * K + i)

theorem ceil_div_le_iff (a b n : ℕ) (hb : 1 ≤ b) : ceil_div a b ≤ n ↔ a ≤ n * b := by
  unfold ceil_div
  rw [Nat.div_le_iff_le_mul_add_pred hb, Nat.mul_comm n b]
  omega

theorem lt_ceil_div_iff (a b n : ℕ) (hb : 1 ≤ b) : n < ceil_div a b ↔ n * b < a := by
  have h := ceil_div_le_iff a b n hb
  omega

theorem ipow_eq_pow (b e : ℕ) : ipow b e = b ^ e := by
  induction e with
  | zero => rfl
  | succ e ih => simp [ipow, ih, pow_succ]; ring

theorem group_span_eq (K G l : ℕ) : group_span_at_level K G l = G * K ^ l := by
  simp [group_span_at_level, ipow_eq_pow]

theorem group_span_pos (K G l : ℕ) (hG : 1 ≤ G) (hK : 1 ≤ K) :
    1 ≤ group_span_at_level K G l := by
  rw [group_span_eq]
  exact Nat.one_le_iff_ne_zero.mpr (by positivity)

theorem group_span_succ (K G l : ℕ) :
    group_span_at_level K G (l + 1) = group_span_at_level K G l * K := by
  simp [group_span_eq, pow_succ]; ring

/-- Characterization of the planner's group counts: `NUM_GROUPS l` is the
ceiling of `N / (G * K^l)`, stated through its Galois characterization. -/
theorem NUM_GROUPS_le_iff (N G K l n : ℕ) (hG : 1 ≤ G) (hK : 1 ≤ K) :
    NUM_GROUPS N G K l ≤ n ↔ N ≤ n * group_span_at_level K G l := by
  induction l generalizing n with
  | zero =>
    rw [group_span_eq]
    simpa [NUM_GROUPS] using ceil_div_le_iff N G n hG
  | succ l ih =>
    rw [NUM_GROUPS, ceil_div_le_iff _ _ _ hK, group_span_succ]
    constructor
    · intro h
      calc N ≤ (n * K) * group_span_at_level K G l := (ih (n * K)).mp h
        _ = n * (group_span_at_level K G l * K) := by ring
    · intro h
      refine (ih (n * K)).mpr ?_
      calc N ≤ n * (group_span_at_level K G l * K) := h
        _ = (n * K) * group_span_at_level K G l := by ring

theorem NUM_GROUPS_pos (N G K l : ℕ) (hN : 1 ≤ N) (hG : 1 ≤ G) (hK : 1 ≤ K) :
    1 ≤ NUM_GROUPS N G K l := by
  by_contra h
  have h0 : NUM_GROUPS N G K l ≤ 0 := by omega
  have := (NUM_GROUPS_le_iff N G K l 0 hG hK).mp h0
  simp at this
  omega

/-- A group index is in range at level `l` iff its owner PE id is below `N`. -/
theorem lt_NUM_GROUPS_iff (N G K l g : ℕ) (hG : 1 ≤ G) (hK : 1 ≤ K) :
    g < NUM_GROUPS N G K l ↔ g * group_span_at_level K G l < N := by
  have h := NUM_GROUPS_le_iff N G K l g hG hK
  omega

theorem ceil_div_lt_self (p K : ℕ) (hp : 1 < p) (hK : 2 ≤ K) : ceil_div p K < p := by
  obtain ⟨q, rfl⟩ : ∃ q, p = q + 2 := ⟨p - 2, by omega⟩
  have h1 : q + 2 ≤ (q + 1) * K := by nlinarith
  have h2 := (ceil_div_le_iff (q + 2) K (q + 1) (by omega)).mpr h1
  omega

theorem level_count_loop_fuel (K fuel1 fuel2 prev : ℕ) (hK : 2 ≤ K)
    (h1 : prev ≤ fuel1 + 1) (h2 : prev ≤ fuel2 + 1) :
    level_count_loop K fuel1 prev = level_count_loop K fuel2 prev := by
  induction fuel1 generalizing fuel2 prev with
  | zero =>
    have hp : ¬ 1 < prev := by omega
    cases fuel2 with
    | zero => rfl
    | succ f => simp [level_count_loop, hp]
  | succ f ih =>
    cases fuel2 with
    | zero =>
      have hp : ¬ 1 < prev := by omega
      simp [level_count_loop, hp]
    | succ f2 =>
      by_cases hp : 1 < prev
      · have hlt := ceil_div_lt_self prev K hp hK
        simp only [level_count_loop, hp, if_true]
        rw [ih f2 (ceil_div prev K) (by omega) (by omega)]
      · simp [level_count_loop, hp]

/-- Unfolding rule for the level-counting loop at its standard fuel. -/
theorem level_count_self (K prev : ℕ) (hK : 2 ≤ K) (hp : 1 < prev) :
    level_count_loop K prev prev = 1 + level_count_loop K (ceil_div prev K) (ceil_div prev K) := by
  cases prev with
  | zero => omega
  | succ p =>
    simp only [level_count_loop, hp, if_true]
    have hlt := ceil_div_lt_self (p + 1) K hp hK
    rw [level_count_loop_fuel K p (ceil_div (p + 1) K) (ceil_div (p + 1) K) hK (by omega) (by omega)]

theorem level_count_one (K prev : ℕ) (hp : prev ≤ 1) :
    level_count_loop K prev prev = 1 := by
  cases prev with
  | zero => rfl
  | succ p =>
    have hnp : ¬ 1 < p + 1 := by omega
    simp [level_count_loop, hnp]

theorem cd_iter_shift (K l p : ℕ) : cd_iter K (l + 1) p = cd_iter K l (ceil_div p K) := by
  induction l with
  | zero => rfl
  | succ l ih => rw [cd_iter, ih, cd_iter]

theorem NUM_GROUPS_eq_iter (N G K l : ℕ) :
    NUM_GROUPS N G K l = cd_iter K l (ceil_div N G) := by
  induction l with
  | zero => rfl
  | succ l ih => simp [NUM_GROUPS, cd_iter, ih]

/-- Correctness of the level-counting loop: with `L = level_count_loop K prev
prev`, the `(L-1)`-st iterate of `ceil_div . K` on `prev` is `1`, and every
earlier iterate is `> 1` (so `L` is the smallest index whose predecessor
iterate equals 1). -/
theorem level_count_spec (K : ℕ) (hK : 2 ≤ K) :
    ∀ prev, 1 ≤ prev →
      cd_iter K (level_count_loop K prev prev - 1) prev = 1 ∧
      ∀ j, j < level_count_loop K prev prev - 1 → 1 < cd_iter K j prev := by
  intro prev
  induction prev using Nat.strong_induction_on with
  | _ prev ih =>
    intro hprev
    by_cases hp : 1 < prev
    · have hlt := ceil_div_lt_self prev K hp hK
      have hcd1 : 1 ≤ ceil_div prev K := by
        have := lt_ceil_div_iff prev K 0 (by omega)
        omega
      obtain ⟨h1, h2⟩ := ih (ceil_div prev K) hlt hcd1
      rw [level_count_self K prev hK hp]
      set L2 := level_count_loop K (ceil_div prev K) (ceil_div prev K) with hL2
      have hL2pos : 1 ≤ L2 := by
        cases hcd : ceil_div prev K with
        | zero => omega
        | succ c =>
          rw [hL2]
          cases c with
          | zero => rw [hcd]; simp [level_count_loop]
          | succ c2 =>
            rw [hcd]
            simp only [level_count_loop]
            split <;> omega
      constructor
      · have : 1 + L2 - 1 = (L2 - 1) + 1 := by omega
        rw [this, cd_iter_shift]
        exact h1
      · intro j hj
        cases j with
        | zero => simpa [cd_iter] using hp
        | succ j2 =>
          rw [cd_iter_shift]
          exact h2 j2 (by omega)
    · have hone : prev = 1 := by omega
      rw [hone, level_count_one K 1 (by omega)]
      exact ⟨rfl, by omega⟩

/-- `LEVELS` is ≥ 1 for every input. -/
theorem LEVELS_pos (N G K : ℕ) : 1 ≤ LEVELS N G K := by
  unfold LEVELS
  cases h : ceil_div N G with
  | zero => simp [level_count_loop]
  | succ c =>
    cases c with
    | zero => simp [level_count_loop]
    | succ c2 => simp only [level_count_loop]; split <;> omega

/-- Planner top-level correctness: exactly one group remains at the top level,
and every level below the top has more than one group. -/
theorem NUM_GROUPS_top (N G K : ℕ) (hN : 1 ≤ N) (hG : 1 ≤ G) (hK : 2 ≤ K) :
    NUM_GROUPS N G K (LEVELS N G K - 1) = 1 ∧
    ∀ j, j < LEVELS N G K - 1 → 1 < NUM_GROUPS N G K j := by
  have hng0 : 1 ≤ ceil_div N G := by
    have := ceil_div_le_iff N G 0 hG
    omega
  obtain ⟨h1, h2⟩ := level_count_spec K hK (ceil_div N G) hng0
  refine ⟨?_, ?_⟩
  · rw [NUM_GROUPS_eq_iter]; exact h1
  · intro j hj
    rw [NUM_GROUPS_eq_iter]
    exact h2 j hj

theorem step_pc_mono (N G K : ℕ) (s s' : HState) (h : Step N G K s s') (q : ℕ) :
    s.pc q ≤ s'.pc q := by
  cases h with
  | write p loc hp hinstr => simp only [setDone, bumpPC]; split <;> omega
  | wait p loc hp hinstr hdone => simp only [bumpPC]; split <;> omega

theorem step_done_mono (N G K : ℕ) (s s' : HState) (h : Step N G K s s') (loc : Loc) :
    s.done loc ≤ s'.done loc := by
  cases h with
  | write p loc hp hinstr =>
    simp only [setDone, bumpPC]
    split
    · exact Bool.le_true _
    · exact le_refl _
  | wait p loc hp hinstr hdone => exact le_refl _

theorem steps_pc_mono (N G K : ℕ) (s s' : HState)
    (h : Relation.ReflTransGen (Step N G K) s s') (q : ℕ) : s.pc q ≤ s'.pc q := by
  induction h with
  | refl => exact le_refl _
  | tail h1 h2 ih => exact le_trans ih (step_pc_mono N G K _ _ h2 q)

theorem steps_done_mono (N G K : ℕ) (s s' : HState)
    (h : Relation.ReflTransGen (Step N G K) s s') (loc : Loc) :
    s.done loc ≤ s'.done loc := by
  induction h with
  | refl => exact le_refl _
  | tail h1 h2 ih => exact le_trans ih (step_done_mono N G K _ _ h2 loc)

theorem cov_subset_lt (N G K l g i : ℕ) : ∀ q ∈ cov N G K l g i, q < N := by
  intro q hq
  unfold cov at hq
  split at hq <;> exact lt_of_lt_of_le hq.2 (min_le_right _ _)

/-- Chained half-open intervals clipped at `N`: the union of
`[a i, min (a (i+1)) N)` over `i < m` is `[a 0, min (a m) N)` for any
monotone `a`. -/
theorem iUnion_Ico_chain (N m : ℕ) (a : ℕ → ℕ) (mono : Monotone a) :
    (⋃ i ∈ Finset.range m, Set.Ico (a i) (min (a (i + 1)) N))
      = Set.Ico (a 0) (min (a m) N) := by
  induction m with
  | zero =>
    ext x
    simp only [Finset.mem_range, Set.mem_iUnion, Set.mem_Ico, lt_min_iff, exists_prop]
    constructor
    · rintro ⟨i, hi, _⟩; omega
    · rintro ⟨h1, h2, h3⟩; omega
  | succ m ih =>
    have h0m : a 0 ≤ a m := mono (Nat.zero_le m)
    have hmm : a m ≤ a (m + 1) := mono (Nat.le_succ m)
    have ihx := Set.ext_iff.mp ih
    ext x
    have ihx2 := ihx x
    simp only [Finset.mem_range, Set.mem_iUnion, Set.mem_Ico, lt_min_iff, exists_prop] at ihx2 ⊢
    constructor
    · rintro ⟨i, hi, h1, h2, h3⟩
      by_cases him : i = m
      · subst him; exact ⟨le_trans h0m h1, h2, h3⟩
      · have hint := ihx2.mp ⟨i, by omega, h1, h2, h3⟩
        exact ⟨hint.1, lt_of_lt_of_le hint.2.1 hmm, h3⟩
    · rintro ⟨h1, h2, h3⟩
      by_cases hc : x < a m
      · obtain ⟨i, hi, hh⟩ := ihx2.mpr ⟨h1, hc, h3⟩
        exact ⟨i, by omega, hh⟩
      · exact ⟨m, by omega, by omega, h2, h3⟩

/-- The covering lemma for the upward fan-in: the slots an owner actually
waits on (`i < gsize`) jointly account for exactly the PE range of its group,
clipped to the existing PEs. -/
theorem cov_union (N G K l g : ℕ) (hG : 1 ≤ G) (hK : 2 ≤ K)
    (hg : g < NUM_GROUPS N G K l) :
    (⋃ i ∈ Finset.range (gsize N G K l g), cov N G K l g i)
      = Set.Ico (g * group_span_at_level K G l)
          (min ((g + 1) * group_span_at_level K G l) N) := by
  have hK1 : 1 ≤ K := by omega
  cases l with
  | zero =>
    have howner : static_group_owner_pe K G 0 g = g * G := by
      simp [static_group_owner_pe, group_span_at_level, ipow]
    have hspan : group_span_at_level K G 0 = G := by
      simp [group_span_at_level, ipow]
    have hgN : g * G < N := by
      have h := (lt_NUM_GROUPS_iff N G K 0 g hG hK1).mp hg
      rwa [hspan] at h
    have hgs : gsize N G K 0 g = min (g * G + G) N - g * G := by
      simp [gsize, howner]
    have hg1 : (g + 1) * G = g * G + G := by ring
    have hcov0 : ∀ i, cov N G K 0 g i = Set.Ico (g * G + i) (min (g * G + i + 1) N) := by
      intro i; simp [cov]
    rw [hspan]
    rcases min_cases (g * G + G) N with ⟨hm, hm2⟩ | ⟨hm, hm2⟩ <;> rw [hm] at hgs <;>
    · ext x
      simp only [Set.mem_iUnion, Finset.mem_range, exists_prop, hcov0, Set.mem_Ico, lt_min_iff]
      constructor
      · rintro ⟨i, hi, h1, h2, h3⟩; omega
      · intro h; exact ⟨x - g * G, by omega, by omega, by omega, by omega⟩
  | succ l2 =>
    have hspan1 : 1 ≤ group_span_at_level K G l2 := group_span_pos K G l2 hG hK1
    have hsucc : group_span_at_level K G (l2 + 1) = group_span_at_level K G l2 * K :=
      group_span_succ K G l2
    have hgK : g * K < NUM_GROUPS N G K l2 := by
      have h := lt_ceil_div_iff (NUM_GROUPS N G K l2) K g hK1
      simp only [NUM_GROUPS] at hg
      omega
    have hbound : N ≤ NUM_GROUPS N G K l2 * group_span_at_level K G l2 := by
      have h := (NUM_GROUPS_le_iff N G K l2 (NUM_GROUPS N G K l2) hG hK1).mp (le_refl _)
      omega
    have hgs : gsize N G K (l2 + 1) g
        = if g * K + K ≤ NUM_GROUPS N G K l2 then K else NUM_GROUPS N G K l2 - g * K := by
      simp [gsize]
    have hcovs : (⋃ i ∈ Finset.range (gsize N G K (l2 + 1) g), cov N G K (l2 + 1) g i)
        = ⋃ i ∈ Finset.range (gsize N G K (l2 + 1) g),
            Set.Ico ((fun i => (g * K + i) * group_span_at_level K G l2) i)
              (min ((fun i => (g * K + i) * group_span_at_level K G l2) (i + 1)) N) := by
      apply Set.iUnion₂_congr
      intro i hi
      have hrw : g * K + i + 1 = g * K + (i + 1) := by omega
      simp only [cov, Nat.succ_ne_zero, if_false, Nat.add_sub_cancel]
      rw [hrw]
    have hchain := iUnion_Ico_chain N (gsize N G K (l2 + 1) g)
      (fun i => (g * K + i) * group_span_at_level K G l2)
      (fun i j hij => Nat.mul_le_mul_right (group_span_at_level K G l2) (by omega))
    have work := hcovs.trans hchain
    rw [work]
    by_cases hle : g * K + K ≤ NUM_GROUPS N G K l2
    · have hgsK : gsize N G K (l2 + 1) g = K := by rw [hgs, if_pos hle]
      have hz : (g * K + 0) * group_span_at_level K G l2
          = g * (group_span_at_level K G l2 * K) := by ring
      have hK2 : (g * K + K) * group_span_at_level K G l2
          = (g + 1) * (group_span_at_level K G l2 * K) := by ring
      rw [hgsK]
      ext x
      simp only [Set.mem_Ico, lt_min_iff, hsucc]
      omega
    · have hgsT : gsize N G K (l2 + 1) g = NUM_GROUPS N G K l2 - g * K := by
        rw [hgs, if_neg hle]
      have hz : (g * K + 0) * group_span_at_level K G l2
          = g * (group_span_at_level K G l2 * K) := by ring
      have hend : (g * K + (NUM_GROUPS N G K l2 - g * K)) * group_span_at_level K G l2
          = NUM_GROUPS N G K l2 * group_span_at_level K G l2 := by
        congr 1
        omega
      have hge : NUM_GROUPS N G K l2 * group_span_at_level K G l2
          ≤ (g + 1) * (group_span_at_level K G l2 * K) := by
        calc NUM_GROUPS N G K l2 * group_span_at_level K G l2
            ≤ ((g + 1) * K) * group_span_at_level K G l2 := by
              refine Nat.mul_le_mul_right (group_span_at_level K G l2) ?_
              have hx : (g + 1) * K = g * K + K := by ring
              omega
          _ = (g + 1) * (group_span_at_level K G l2 * K) := by ring
      rw [hgsT]
      ext x
      simp only [Set.mem_Ico, lt_min_iff, hsucc]
      omega

theorem covUnionOf_mono (N G K : ℕ) (S T : Set Loc) (h : S ⊆ T) :
    covUnionOf N G K S ⊆ covUnionOf N G K T := by
  intro x hx
  simp only [covUnionOf, Set.mem_iUnion, exists_prop] at hx ⊢
  obtain ⟨loc, hloc, hxl⟩ := hx
  exact ⟨loc, h hloc, hxl⟩

theorem WriteOK_mono (N G K p : ℕ) (S T : Set Loc) (loc : Loc) (h : S ⊆ T)
    (hw : WriteOK N G K p S loc) : WriteOK N G K p T loc := by
  cases loc with
  | mail l g i =>
    exact subset_trans hw (Set.insert_subset_insert (covUnionOf_mono N G K S T h))
  | token l g =>
    rcases hw with ⟨l2, g2, hmem⟩ | hcov
    · exact Or.inl ⟨l2, g2, h hmem⟩
    · exact Or.inr (subset_trans hcov (covUnionOf_mono N G K S T h))
  | gate q =>
    rcases hw with ⟨l2, g2, hmem⟩ | hcov
    · exact Or.inl ⟨l2, g2, h hmem⟩
    · exact Or.inr (subset_trans hcov (covUnionOf_mono N G K S T h))

theorem ProgOK_congr (N G K p : ℕ) (L : List Instr) (S T : Set Loc) (h : S = T)
    (hp : ProgOK N G K p L S) : ProgOK N G K p L T := h ▸ hp

theorem waitLocs_append (A B : List Instr) : waitLocs (A ++ B) = waitLocs A ∪ waitLocs B := by
  induction A with
  | nil => simp [waitLocs]
  | cons instr rest ih =>
    cases instr with
    | wait loc => simp only [List.cons_append, waitLocs, List.append_eq, ih, Set.insert_union]
    | write loc => simp only [List.cons_append, waitLocs, List.append_eq, ih]

theorem mem_waitLocs (L : List Instr) (loc : Loc) : loc ∈ waitLocs L ↔ Instr.wait loc ∈ L := by
  induction L with
  | nil => simp [waitLocs]
  | cons instr rest ih =>
    cases instr with
    | wait loc2 =>
      simp only [waitLocs, Set.mem_insert_iff, List.mem_cons, ih, Instr.wait.injEq]
    | write loc2 =>
      simp only [waitLocs, List.mem_cons, ih]
      constructor
      · exact Or.inr
      · rintro (h | h)
        · exact absurd h (by simp)
        · exact h

theorem ProgOK_append (N G K p : ℕ) (A B : List Instr) :
    ∀ S : Set Loc, ProgOK N G K p (A ++ B) S ↔
      ProgOK N G K p A S ∧ ProgOK N G K p B (waitLocs A ∪ S) := by
  induction A with
  | nil =>
    intro S
    simp only [List.nil_append, waitLocs, Set.empty_union, ProgOK, true_and]
  | cons instr rest ih =>
    intro S
    cases instr with
    | wait loc =>
      simp only [List.cons_append, ProgOK, waitLocs, List.append_eq]
      rw [ih (insert loc S)]
      have hset : waitLocs rest ∪ insert loc S = insert loc (waitLocs rest) ∪ S := by
        rw [Set.union_insert, Set.insert_union]
      rw [hset]
    | write loc =>
      simp only [List.cons_append, ProgOK, waitLocs, List.append_eq]
      rw [ih S, and_assoc]

theorem ProgOK_get (N G K p : ℕ) (L : List Instr) :
    ∀ (S : Set Loc) (j : ℕ) (loc : Loc), ProgOK N G K p L S →
      L.get? j = some (Instr.write loc) →
      WriteOK N G K p (waitLocs (L.take j) ∪ S) loc := by
  induction L with
  | nil => intro S j loc h hj; simp at hj
  | cons instr rest ih =>
    intro S j loc h hj
    cases j with
    | zero =>
      simp only [List.get?] at hj
      injection hj with hj2
      subst hj2
      simp only [List.take_zero, waitLocs, Set.empty_union]
      exact h.1
    | succ j2 =>
      simp only [List.get?] at hj
      rw [List.take_succ_cons]
      cases instr with
      | wait loc2 =>
        have h2 : ProgOK N G K p rest (insert loc2 S) := h
        have hres := ih (insert loc2 S) j2 loc h2 hj
        have hset : waitLocs (rest.take j2) ∪ insert loc2 S
            = insert loc2 (waitLocs (rest.take j2)) ∪ S := by
          rw [Set.union_insert, Set.insert_union]
        rw [hset] at hres
        simpa only [waitLocs] using hres
      | write loc2 =>
        have hres := ih S j2 loc h.2 hj
        simpa only [waitLocs] using hres

theorem progOK_allWaits (N G K p : ℕ) (L : List Instr)
    (hw : ∀ instr ∈ L, ∃ loc, instr = Instr.wait loc) :
    ∀ S, ProgOK N G K p L S := by
  induction L with
  | nil => intro S; trivial
  | cons instr rest ih =>
    intro S
    obtain ⟨loc, hloc⟩ := hw instr (List.mem_cons_self _ _)
    subst hloc
    exact ih (fun i hi => hw i (List.mem_cons_of_mem _ hi)) (insert loc S)

theorem progOK_flatMap (N G K p : ℕ) (f : ℕ → List Instr) (L : List ℕ)
    (hf : ∀ a ∈ L, ∀ S, ProgOK N G K p (f a) S) :
    ∀ S, ProgOK N G K p (L.flatMap f) S := by
  induction L with
  | nil => intro S; trivial
  | cons a rest ih =>
    intro S
    rw [List.flatMap_cons]
    rw [ProgOK_append]
    exact ⟨hf a (List.mem_cons_self _ _) S,
      ih (fun b hb => hf b (List.mem_cons_of_mem _ hb)) _⟩

theorem progOK_allWrites (N G K p : ℕ) (L : List Instr) (S : Set Loc)
    (hw : ∀ instr ∈ L, ∃ loc, instr = Instr.write loc ∧ WriteOK N G K p S loc) :
    ProgOK N G K p L S := by
  induction L with
  | nil => trivial
  | cons instr rest ih =>
    obtain ⟨loc, hloc, hok⟩ := hw instr (List.mem_cons_self _ _)
    subst hloc
    exact ⟨hok, ih fun i hi => hw i (List.mem_cons_of_mem _ hi)⟩

/-- A level-`l` fan-in owner is a group index in range. -/
theorem owner_group_lt (N G K p l : ℕ) (hp : p < N) (hG : 1 ≤ G) (hK : 2 ≤ K) :
    p / group_span_at_level K G l < NUM_GROUPS N G K l := by
  have hK1 : 1 ≤ K := by omega
  have hspan := group_span_pos K G l hG hK1
  rw [lt_NUM_GROUPS_iff N G K l _ hG hK1]
  calc p / group_span_at_level K G l * group_span_at_level K G l ≤ p :=
        Nat.div_mul_le_self p _
    _ < N := hp

/-- The parent-notify write of a fan-in owner is justified by its child waits:
the slot it writes for its group covers exactly what its observed child slots
jointly cover. -/
theorem cov_parent_eq (N G K l g : ℕ) (hG : 1 ≤ G) (hK : 2 ≤ K)
    (hg : g < NUM_GROUPS N G K l) :
    cov N G K (l + 1) (g / K) (g % K)
      = ⋃ i ∈ Finset.range (gsize N G K l g), cov N G K l g i := by
  have hdm : g / K * K + g % K = g := by
    rw [Nat.mul_comm]
    exact Nat.div_add_mod g K
  rw [cov_union N G K l g hG hK hg]
  simp only [cov, Nat.succ_ne_zero, if_false, Nat.add_sub_cancel, hdm]

theorem progOK_faninStep (N G K p : ℕ) (hp : p < N) (hG : 1 ≤ G) (hK : 2 ≤ K) (l : ℕ) :
    ∀ S, ProgOK N G K p (faninStep N G K p l) S := by
  intro S
  simp only [faninStep]
  by_cases hown : p = static_group_owner_pe K G l (p / group_span_at_level K G l)
  · rw [if_pos hown]
    rw [ProgOK_append]
    constructor
    · apply progOK_allWaits
      intro instr hinstr
      simp only [List.mem_map] at hinstr
      obtain ⟨i, _, rfl⟩ := hinstr
      exact ⟨_, rfl⟩
    · by_cases hlt : l + 1 < LEVELS N G K
      · rw [if_pos hlt]
        refine ⟨?_, trivial⟩
        show cov N G K (l + 1) (p / group_span_at_level K G l / K)
            (p / group_span_at_level K G l % K) ⊆ _
        set g := p / group_span_at_level K G l with hgdef
        have hg : g < NUM_GROUPS N G K l := owner_group_lt N G K p l hp hG hK
        rw [cov_parent_eq N G K l g hG hK hg]
        intro x hx
        simp only [Set.mem_iUnion, exists_prop] at hx
        obtain ⟨i, hi, hxi⟩ := hx
        apply Set.mem_insert_of_mem
        simp only [covUnionOf, Set.mem_iUnion, exists_prop]
        refine ⟨Loc.mail l g i, Or.inl ?_, hxi⟩
        rw [mem_waitLocs]
        simp only [List.mem_map]
        exact ⟨i, by simpa using hi, rfl⟩
      · rw [if_neg hlt]
        trivial
  · rw [if_neg hown]
    trivial

theorem progOK_fanoutStep (N G K p l : ℕ) : ∀ S, ProgOK N G K p (fanoutStep N G K p l) S := by
  intro S
  simp only [fanoutStep]
  by_cases hown : p = static_group_owner_pe K G l (p / group_span_at_level K G l)
  · rw [if_pos hown]
    show ProgOK N G K p _ _
    set g := p / group_span_at_level K G l with hgdef
    have htok : hasTokenIn (insert (Loc.token l g) S) := ⟨l, g, Set.mem_insert _ _⟩
    show ProgOK N G K p
      (if 0 < l then _ else _) (insert (Loc.token l g) S)
    split
    · apply progOK_allWrites
      intro instr hinstr
      simp only [List.mem_map] at hinstr
      obtain ⟨c, _, rfl⟩ := hinstr
      exact ⟨_, rfl, Or.inl htok⟩
    · apply progOK_allWrites
      intro instr hinstr
      simp only [List.mem_map] at hinstr
      obtain ⟨j, _, rfl⟩ := hinstr
      exact ⟨_, rfl, Or.inl htok⟩
  · rw [if_neg hown]
    trivial

/-- The fan-in step of the root PE 0 at any level: PE 0 is the owner of group 0
at every level, so it waits on all of that group's child slots. -/
theorem faninStep_root (N G K τ : ℕ) :
    faninStep N G K 0 τ
      = ((List.range (gsize N G K τ 0)).map fun i => Instr.wait (Loc.mail τ 0 i))
        ++ (if τ + 1 < LEVELS N G K then [Instr.write (Loc.mail (τ + 1) 0 0)] else []) := by
  simp [faninStep, static_group_owner_pe, Nat.zero_div]

/-- The root's top-level fan-in waits certify every PE: the top-level group 0
covers the whole PE range. -/
theorem root_top_coverage (N G K : ℕ) (hN : 1 ≤ N) (hG : 1 ≤ G) (hK : 2 ≤ K) :
    (⋃ i ∈ Finset.range (gsize N G K (LEVELS N G K - 1) 0), cov N G K (LEVELS N G K - 1) 0 i)
      = Set.Ico 0 N := by
  have hK1 : 1 ≤ K := by omega
  set τ := LEVELS N G K - 1 with hτ
  have h0 : (0 : ℕ) < NUM_GROUPS N G K τ := NUM_GROUPS_pos N G K τ hN hG hK1
  have htop : NUM_GROUPS N G K τ = 1 := (NUM_GROUPS_top N G K hN hG hK).1
  have hcover : N ≤ group_span_at_level K G τ := by
    have h := (NUM_GROUPS_le_iff N G K τ 1 hG hK1).mp (by omega)
    simpa using h
  rw [cov_union N G K τ 0 hG hK h0]
  rw [Nat.zero_mul, Nat.zero_add, Nat.one_mul, Nat.min_eq_right hcover]

/-- Structural soundness of a PE's whole program: every store of DONE_SENTINEL
it contains is justified by the waits that precede it. -/
theorem progOK_hstar (N G K p : ℕ) (hp : p < N) (hN : 1 ≤ N) (hG : 1 ≤ G) (hK : 2 ≤ K) :
    ProgOK N G K p (hstarProgram N G K p) ∅ := by
  unfold hstarProgram
  rw [ProgOK_append]
  constructor
  swap
  · apply progOK_allWaits
    intro instr hinstr
    simp only [List.mem_singleton] at hinstr
    exact ⟨_, hinstr⟩
  rw [ProgOK_append]
  constructor
  swap
  · apply progOK_flatMap
    intro a _ S2
    exact progOK_fanoutStep N G K p a S2
  rw [ProgOK_append]
  constructor
  swap
  · -- the root's seeding of the top-level broadcast token
    by_cases hroot : p = 0
    · rw [if_pos hroot]
      refine ⟨?_, trivial⟩
      refine Or.inr ?_
      intro x hx
      have hxN : x < N := hx.2
      have hx2 : x ∈ ⋃ i ∈ Finset.range (gsize N G K (LEVELS N G K - 1) 0),
          cov N G K (LEVELS N G K - 1) 0 i := by
        rw [root_top_coverage N G K hN hG hK]
        exact hx
      simp only [Set.mem_iUnion, exists_prop] at hx2
      obtain ⟨i, hi, hxi⟩ := hx2
      simp only [covUnionOf, Set.mem_iUnion, exists_prop]
      refine ⟨Loc.mail (LEVELS N G K - 1) 0 i, ?_, hxi⟩
      left
      rw [waitLocs_append]
      right
      rw [mem_waitLocs]
      simp only [List.mem_flatMap]
      refine ⟨LEVELS N G K - 1, ?_, ?_⟩
      · simp only [List.mem_range]
        have := LEVELS_pos N G K
        omega
      · rw [hroot] at *
        rw [faninStep_root]
        apply List.mem_append_left
        simp only [List.mem_map]
        exact ⟨i, by simpa using hi, rfl⟩
    · rw [if_neg hroot]
      trivial
  rw [ProgOK_append]
  constructor
  · -- the leaf publish into the PE's own slot of its leaf group
    refine ⟨?_, trivial⟩
    show cov N G K 0 (p / G) (p % G) ⊆ _
    have hdm : p / G * G + p % G = p := by
      rw [Nat.mul_comm]
      exact Nat.div_add_mod p G
    intro x hx
    have hx2 : p / G * G + p % G ≤ x ∧ x < min (p / G * G + p % G + 1) N := by
      simpa [cov, Set.mem_Ico] using hx
    have hmin : min (p / G * G + p % G + 1) N ≤ p / G * G + p % G + 1 :=
      min_le_left _ _
    have hxp : x = p := by omega
    subst hxp
    exact Set.mem_insert _ _
  · apply progOK_flatMap
    intro a _ S2
    exact progOK_faninStep N G K p hp hG hK a S2

theorem bumpPC_pc (s : HState) (p q : ℕ) :
    (bumpPC s p).pc q = if q = p then s.pc q + 1 else s.pc q := rfl

theorem bumpPC_done (s : HState) (p : ℕ) (x : Loc) : (bumpPC s p).done x = s.done x := rfl

theorem setDone_pc (s : HState) (loc : Loc) (q : ℕ) : (setDone s loc).pc q = s.pc q := rfl

theorem setDone_done (s : HState) (loc x : Loc) :
    (setDone s loc).done x = if x = loc then true else s.done x := rfl

theorem take_append_instr (L : List Instr) (n : ℕ) (instr : Instr)
    (h : L.get? n = some instr) : L.take (n + 1) = L.take n ++ [instr] := by
  rw [List.take_succ, ← List.get?_eq_getElem?, h]
  rfl

theorem HInv_init (N G K : ℕ) : HInv N G K initState := by
  constructor
  · intro p hp loc hmem
    simp only [initState, List.take_zero, waitLocs] at hmem
    exact absurd hmem (Set.not_mem_empty _)
  · intro p hp loc hmem
    simp only [initState, List.take_zero] at hmem
    exact absurd hmem (List.not_mem_nil _)
  · intro l g i h
    simp [initState] at h
  · intro l g h
    simp [initState] at h
  · intro q h
    simp [initState] at h

theorem HInv_step (N G K : ℕ) (hN : 1 ≤ N) (hG : 1 ≤ G) (hK : 2 ≤ K) {s s' : HState}
    (hinv : HInv N G K s) (hstep : Step N G K s s') : HInv N G K s' := by
  cases hstep with
  | write p loc hp hinstr =>
    have htake : (hstarProgram N G K p).take (s.pc p + 1)
        = (hstarProgram N G K p).take (s.pc p) ++ [Instr.write loc] :=
      take_append_instr _ _ _ hinstr
    have hWok := ProgOK_get N G K p (hstarProgram N G K p) ∅ (s.pc p) loc
      (progOK_hstar N G K p hp hN hG hK) hinstr
    have hWdone : ∀ loc2 ∈ waitLocs ((hstarProgram N G K p).take (s.pc p)) ∪ (∅ : Set Loc),
        s.done loc2 = true := by
      rintro loc2 (h2 | h2)
      · exact hinv.waitsDone p hp loc2 h2
      · exact absurd h2 (Set.not_mem_empty _)
    have hcovPub : ∀ x ∈ covUnionOf N G K
        (waitLocs ((hstarProgram N G K p).take (s.pc p)) ∪ ∅), 1 ≤ s.pc x := by
      intro x hx
      simp only [covUnionOf, Set.mem_iUnion, exists_prop] at hx
      obtain ⟨loc2, hmem, hxcov⟩ := hx
      cases loc2 with
      | mail l g i => exact hinv.mailDone l g i (hWdone _ hmem) x hxcov
      | token l g => exact absurd hxcov (Set.not_mem_empty _)
      | gate q => exact absurd hxcov (Set.not_mem_empty _)
    have hpub : published N s → published N (setDone (bumpPC s p) loc) := by
      intro h q hq
      rw [setDone_pc, bumpPC_pc]
      have := h q hq
      split <;> omega
    constructor
    · intro p2 hp2 loc2 hmem
      rw [setDone_pc, bumpPC_pc] at hmem
      rw [setDone_done, bumpPC_done]
      by_cases hpp : p2 = p
      · subst hpp
        rw [if_pos rfl, htake, waitLocs_append] at hmem
        rcases hmem with h2 | h2
        · have hold := hinv.waitsDone p2 hp2 loc2 h2
          split
          · rfl
          · exact hold
        · simp only [waitLocs] at h2
          exact absurd h2 (Set.not_mem_empty _)
      · rw [if_neg hpp] at hmem
        have hold := hinv.waitsDone p2 hp2 loc2 hmem
        split
        · rfl
        · exact hold
    · intro p2 hp2 loc2 hmem
      rw [setDone_pc, bumpPC_pc] at hmem
      rw [setDone_done, bumpPC_done]
      by_cases hpp : p2 = p
      · subst hpp
        rw [if_pos rfl, htake] at hmem
        rcases List.mem_append.mp hmem with h2 | h2
        · have hold := hinv.writesDone p2 hp2 loc2 h2
          split
          · rfl
          · exact hold
        · simp only [List.mem_singleton] at h2
          injection h2 with h3
          rw [if_pos h3]
      · rw [if_neg hpp] at hmem
        have hold := hinv.writesDone p2 hp2 loc2 hmem
        split
        · rfl
        · exact hold
    · intro l g i hdone2 q hq
      rw [setDone_done, bumpPC_done] at hdone2
      rw [setDone_pc, bumpPC_pc]
      by_cases hml : Loc.mail l g i = loc
      · subst hml
        have hsub : cov N G K l g i ⊆ insert p (covUnionOf N G K
            (waitLocs ((hstarProgram N G K p).take (s.pc p)) ∪ ∅)) := hWok
        rcases Set.mem_insert_iff.mp (hsub hq) with hqp | hqcov
        · rw [if_pos hqp]
          omega
        · have := hcovPub q hqcov
          split <;> omega
      · rw [if_neg hml] at hdone2
        have := hinv.mailDone l g i hdone2 q hq
        split <;> omega
    · intro l g hdone2
      rw [setDone_done, bumpPC_done] at hdone2
      by_cases htl : Loc.token l g = loc
      · subst htl
        have hWok2 : hasTokenIn (waitLocs ((hstarProgram N G K p).take (s.pc p)) ∪ ∅)
            ∨ Set.Ico 0 N ⊆ covUnionOf N G K
                (waitLocs ((hstarProgram N G K p).take (s.pc p)) ∪ ∅) := hWok
        rcases hWok2 with ⟨l2, g2, hmem⟩ | hIco
        · exact hpub (hinv.tokenDone l2 g2 (hWdone _ hmem))
        · intro q hq
          have hqIco : q ∈ Set.Ico 0 N := by
            simp only [Set.mem_Ico]
            omega
          have := hcovPub q (hIco hqIco)
          rw [setDone_pc, bumpPC_pc]
          split <;> omega
      · rw [if_neg htl] at hdone2
        exact hpub (hinv.tokenDone l g hdone2)
    · intro q0 hdone2
      rw [setDone_done, bumpPC_done] at hdone2
      by_cases htl : Loc.gate q0 = loc
      · subst htl
        have hWok2 : hasTokenIn (waitLocs ((hstarProgram N G K p).take (s.pc p)) ∪ ∅)
            ∨ Set.Ico 0 N ⊆ covUnionOf N G K
                (waitLocs ((hstarProgram N G K p).take (s.pc p)) ∪ ∅) := hWok
        rcases hWok2 with ⟨l2, g2, hmem⟩ | hIco
        · exact hpub (hinv.tokenDone l2 g2 (hWdone _ hmem))
        · intro q hq
          have hqIco : q ∈ Set.Ico 0 N := by
            simp only [Set.mem_Ico]
            omega
          have := hcovPub q (hIco hqIco)
          rw [setDone_pc, bumpPC_pc]
          split <;> omega
      · rw [if_neg htl] at hdone2
        exact hpub (hinv.gateDone q0 hdone2)
  | wait p loc hp hinstr hdone =>
    have htake : (hstarProgram N G K p).take (s.pc p + 1)
        = (hstarProgram N G K p).take (s.pc p) ++ [Instr.wait loc] :=
      take_append_instr _ _ _ hinstr
    have hpub : published N s → published N (bumpPC s p) := by
      intro h q hq
      rw [bumpPC_pc]
      have := h q hq
      split <;> omega
    constructor
    · intro p2 hp2 loc2 hmem
      rw [bumpPC_pc] at hmem
      rw [bumpPC_done]
      by_cases hpp : p2 = p
      · subst hpp
        rw [if_pos rfl, htake, waitLocs_append] at hmem
        rcases hmem with h2 | h2
        · exact hinv.waitsDone p2 hp2 loc2 h2
        · simp only [waitLocs, Set.mem_insert_iff] at h2
          rcases h2 with h3 | h3
          · rw [h3]; exact hdone
          · exact absurd h3 (Set.not_mem_empty _)
      · rw [if_neg hpp] at hmem
        exact hinv.waitsDone p2 hp2 loc2 hmem
    · intro p2 hp2 loc2 hmem
      rw [bumpPC_pc] at hmem
      rw [bumpPC_done]
      by_cases hpp : p2 = p
      · subst hpp
        rw [if_pos rfl, htake] at hmem
        rcases List.mem_append.mp hmem with h2 | h2
        · exact hinv.writesDone p2 hp2 loc2 h2
        · simp only [List.mem_singleton] at h2
          exact absurd h2 (by simp)
      · rw [if_neg hpp] at hmem
        exact hinv.writesDone p2 hp2 loc2 hmem
    · intro l g i hdone2 q hq
      rw [bumpPC_done] at hdone2
      rw [bumpPC_pc]
      have := hinv.mailDone l g i hdone2 q hq
      split <;> omega
    · intro l g hdone2
      rw [bumpPC_done] at hdone2
      exact hpub (hinv.tokenDone l g hdone2)
    · intro q0 hdone2
      rw [bumpPC_done] at hdone2
      exact hpub (hinv.gateDone q0 hdone2)

/-- Every reachable state satisfies the invariant. -/
theorem reach_inv (N G K : ℕ) (hN : 1 ≤ N) (hG : 1 ≤ G) (hK : 2 ≤ K) (s : HState)
    (h : Reach N G K s) : HInv N G K s := by
  unfold Reach at h
  induction h with
  | refl => exact HInv_init N G K
  | tail h1 h2 ih => exact HInv_step N G K hN hG hK ih h2

theorem mem_take_of_get0 (L : List Instr) (a : Instr) (n : ℕ)
    (h0 : L.get? 0 = some a) (hn : 1 ≤ n) : a ∈ L.take n := by
  cases L with
  | nil => simp at h0
  | cons b rest =>
    simp only [List.get?] at h0
    injection h0 with h
    subst h
    cases n with
    | zero => omega
    | succ m => simp [List.take_succ_cons]

theorem hstarProgram_get0 (N G K q : ℕ) :
    (hstarProgram N G K q).get? 0 = some (Instr.write (Loc.mail 0 (q / G) (q % G))) := rfl

theorem gate_wait_mem (N G K p : ℕ) :
    Instr.wait (Loc.gate p) ∈ hstarProgram N G K p := by
  unfold hstarProgram
  simp

/-- Generic safety of the H-STAR execution system: in a reachable state in
which some PE has completed its final wait on its own gate, every PE has
already executed its leaf publish (its program counter has passed
instruction 0, and its slot of its leaf group's mailbox holds
DONE_SENTINEL). -/
theorem hstar_safety_general (N G K : ℕ) (hN : 1 ≤ N) (hG : 1 ≤ G) (hK : 2 ≤ K)
    (s : HState) (hreach : Reach N G K s) (p : ℕ) (hp : p < N)
    (hfin : (hstarProgram N G K p).length ≤ s.pc p) :
    ∀ q, q < N → 1 ≤ s.pc q ∧ s.done (Loc.mail 0 (q / G) (q % G)) = true := by
  have hinv := reach_inv N G K hN hG hK s hreach
  have htk : (hstarProgram N G K p).take (s.pc p) = hstarProgram N G K p :=
    List.take_of_length_le hfin
  have hdg : s.done (Loc.gate p) = true := by
    apply hinv.waitsDone p hp
    rw [htk, mem_waitLocs]
    exact gate_wait_mem N G K p
  have hpub : published N s := hinv.gateDone p hdg
  intro q hq
  refine ⟨hpub q hq, ?_⟩
  apply hinv.writesDone q hq
  exact mem_take_of_get0 _ _ _ (hstarProgram_get0 N G K q) (hpub q hq)

theorem wReach : Reach 1 1 2 wState6 := by
  refine Relation.ReflTransGen.tail (Relation.ReflTransGen.tail (Relation.ReflTransGen.tail
    (Relation.ReflTransGen.tail (Relation.ReflTransGen.tail (Relation.ReflTransGen.tail
      Relation.ReflTransGen.refl
      (Step.write initState 0 (Loc.mail 0 0 0) (by decide) (by decide)))
      (Step.wait wState1 0 (Loc.mail 0 0 0) (by decide) (by decide) (by decide)))
      (Step.write wState2 0 (Loc.token 0 0) (by decide) (by decide)))
      (Step.wait wState3 0 (Loc.token 0 0) (by decide) (by decide) (by decide)))
      (Step.write wState4 0 (Loc.gate 0) (by decide) (by decide)))
      (Step.wait wState5 0 (Loc.gate 0) (by decide) (by decide) (by decide))

theorem dynStep_counter_mono (m : ℕ) (s s' : DynState) (h : DynStep m s s') :
    s.counter ≤ s'.counter ∧ (s.flagDone = true → s'.flagDone = true) := by
  cases h with
  | observe p hp hidle => exact ⟨le_refl _, fun h2 => h2⟩
  | inc p hp harmed =>
    refine ⟨by simp, ?_⟩
    intro h2
    simp only
    split
    · rfl
    · exact h2

theorem dynSteps_counter_mono (m : ℕ) (s s' : DynState)
    (h : Relation.ReflTransGen (DynStep m) s s') :
    s.counter ≤ s'.counter ∧ (s.flagDone = true → s'.flagDone = true) := by
  induction h with
  | refl => exact ⟨le_refl _, fun h2 => h2⟩
  | tail h1 h2 ih =>
    have h3 := dynStep_counter_mono m _ _ h2
    exact ⟨le_trans ih.1 h3.1, fun h4 => h3.2 (ih.2 h4)⟩

theorem dReach : DynReach 2 dState6 :=
  Relation.ReflTransGen.tail (Relation.ReflTransGen.tail (Relation.ReflTransGen.tail
    (Relation.ReflTransGen.tail (Relation.ReflTransGen.tail (Relation.ReflTransGen.single
      (DynStep.observe dynInit 1 (by decide) (by decide)))
      (DynStep.observe dState1 0 (by decide) (by decide)))
      (DynStep.inc dState2 0 (by decide) (by decide)))
      (DynStep.observe dState3 0 (by decide) (by decide)))
      (DynStep.inc dState4 0 (by decide) (by decide)))
      (DynStep.inc dState5 1 (by decide) (by decide))

theorem atoiDigits_head_not_digit (c : Char) (r : List Char) (h : c.isDigit = false) :
    atoiDigits 0 (c :: r) = 0 := by
  simp [atoiDigits, h]

theorem c_atoi_of_noParse (s : List Char) (h : noParse s = true) : c_atoi s = 0 := by
  unfold noParse at h
  cases ht : s.dropWhile c_isspace with
  | nil =>
    unfold c_atoi
    rw [ht]
    rfl
  | cons c r =>
    rw [ht] at h
    unfold c_atoi
    rw [ht]
    simp only [atoiSign, afterSign] at h ⊢
    by_cases hminus : c = '-'
    · rw [if_pos hminus] at h ⊢
      cases r with
      | nil => simp [atoiDigits]
      | cons c2 r2 =>
        simp only [Bool.not_eq_true'] at h
        rw [atoiDigits_head_not_digit c2 r2 h]
        simp
    · rw [if_neg hminus] at h ⊢
      by_cases hplus : c = '+'
      · rw [if_pos hplus] at h ⊢
        cases r with
        | nil => rfl
        | cons c2 r2 =>
          simp only [Bool.not_eq_true'] at h
          exact atoiDigits_head_not_digit c2 r2 h
      · rw [if_neg hplus] at h ⊢
        simp only [Bool.not_eq_true'] at h
        exact atoiDigits_head_not_digit c r h

/-! ### Member counts and the single-writer discipline -/

theorem owner_div_span (K G l g : ℕ) (hG : 1 ≤ G) (hK : 1 ≤ K) :
    static_group_owner_pe K G l g / group_span_at_level K G l = g := by
  unfold static_group_owner_pe
  exact Nat.mul_div_cancel g (group_span_pos K G l hG hK)

theorem div_mod_pack (a b r : ℕ) (hr : r < b) :
    (a * b + r) / b = a ∧ (a * b + r) % b = r := by
  constructor
  · rw [Nat.mul_comm, Nat.mul_add_div (by omega), Nat.div_eq_of_lt hr]
    omega
  · rw [Nat.mul_comm, Nat.mul_add_mod]
    exact Nat.mod_eq_of_lt hr

/-- The `gsize` computed by the engine equals the spec's `member_count`
formula `min(G, N - g*G)` at the leaf and `min(K, groups_below - g*K)`
above it. -/
theorem gsize_eq_min (N G K l g : ℕ) (hG : 1 ≤ G) (hK : 2 ≤ K) :
    gsize N G K l g
      = if l = 0 then min G (N - g * G) else min K (NUM_GROUPS N G K (l - 1) - g * K) := by
  unfold gsize
  by_cases hl : l = 0
  · rw [if_pos hl, if_pos hl]
    have hO : static_group_owner_pe K G 0 g = g * G := by
      simp [static_group_owner_pe, group_span_at_level, ipow]
    rw [hO]
    rcases min_cases (g * G + G) N with ⟨hm, hm2⟩ | ⟨hm, hm2⟩ <;>
      rcases min_cases G (N - g * G) with ⟨hn, hn2⟩ | ⟨hn, hn2⟩ <;> omega
  · rw [if_neg hl, if_neg hl]
    rcases min_cases K (NUM_GROUPS N G K (l - 1) - g * K) with ⟨hn, hn2⟩ | ⟨hn, hn2⟩ <;>
      split <;> omega

/-- The fan-in program segment of the owner of group `g` at level `l`. -/
theorem faninStep_owner (N G K l g : ℕ) (hG : 1 ≤ G) (hK : 1 ≤ K) :
    faninStep N G K (static_group_owner_pe K G l g) l
      = ((List.range (gsize N G K l g)).map fun i => Instr.wait (Loc.mail l g i))
        ++ (if l + 1 < LEVELS N G K then
              [Instr.write (Loc.mail (l + 1) (g / K) (g % K))]
            else []) := by
  have hdiv := owner_div_span K G l g hG hK
  simp [faninStep, hdiv]

/-- The fan-out program segment of the owner of group `g` at level `l`. -/
theorem fanoutStep_owner (N G K l g : ℕ) (hG : 1 ≤ G) (hK : 1 ≤ K) :
    fanoutStep N G K (static_group_owner_pe K G l g) l
      = Instr.wait (Loc.token l g) ::
        (if 0 < l then
           (List.range (gsize N G K l g)).map fun c => Instr.write (Loc.token (l - 1) (g * K + c))
         else
           (List.range (min (static_group_owner_pe K G l g + G) N
               - static_group_owner_pe K G l g)).map
             fun j => Instr.write (Loc.gate (static_group_owner_pe K G l g + j))) := by
  have hdiv := owner_div_span K G l g hG hK
  simp [fanoutStep, hdiv]

/-- Every write of a mailbox slot appearing in any PE's program is issued by
that slot's designated writer. -/
theorem mail_write_characterize (N G K p l g i : ℕ) (hG : 1 ≤ G) (hK : 2 ≤ K)
    (hmem : Instr.write (Loc.mail l g i) ∈ hstarProgram N G K p) :
    p = mailWriter G K l g i := by
  have hK1 : 1 ≤ K := by omega
  unfold hstarProgram at hmem
  simp only [List.mem_append] at hmem
  rcases hmem with ((((h | h) | h) | h) | h)
  · -- leaf publish
    simp only [List.mem_singleton, Instr.write.injEq, Loc.mail.injEq] at h
    obtain ⟨hl, hg, hi⟩ := h
    subst hl; subst hg; subst hi
    unfold mailWriter
    rw [if_pos rfl, Nat.mul_comm]
    exact (Nat.div_add_mod p G).symm
  · -- fan-in parent notification
    simp only [List.mem_flatMap, List.mem_range] at h
    obtain ⟨l2, hl2, hmem2⟩ := h
    unfold faninStep at hmem2
    by_cases hown : p = static_group_owner_pe K G l2 (p / group_span_at_level K G l2)
    · rw [if_pos hown] at hmem2
      simp only [List.mem_append, List.mem_map] at hmem2
      rcases hmem2 with ⟨i2, _, heq⟩ | hmem3
      · exact absurd heq (by simp)
      · by_cases hlt : l2 + 1 < LEVELS N G K
        · rw [if_pos hlt, List.mem_singleton] at hmem3
          simp only [Instr.write.injEq, Loc.mail.injEq] at hmem3
          obtain ⟨hl, hg, hi⟩ := hmem3
          subst hl
          subst hg
          subst hi
          unfold mailWriter
          rw [if_neg (by omega)]
          have hsimp : l2 + 1 - 1 = l2 := rfl
          rw [hsimp]
          have hdm : p / group_span_at_level K G l2 / K * K
              + p / group_span_at_level K G l2 % K = p / group_span_at_level K G l2 := by
            rw [Nat.mul_comm]
            exact Nat.div_add_mod _ K
          rw [hdm]
          exact hown
        · rw [if_neg hlt] at hmem3
          exact absurd hmem3 (List.not_mem_nil _)
    · rw [if_neg hown] at hmem2
      exact absurd hmem2 (List.not_mem_nil _)
  · -- root token seed
    by_cases hroot : p = 0
    · rw [if_pos hroot, List.mem_singleton] at h
      exact absurd h (by simp)
    · rw [if_neg hroot] at h
      exact absurd h (List.not_mem_nil _)
  · -- fan-out
    simp only [List.mem_flatMap] at h
    obtain ⟨l2, _, hmem2⟩ := h
    unfold fanoutStep at hmem2
    by_cases hown : p = static_group_owner_pe K G l2 (p / group_span_at_level K G l2)
    · rw [if_pos hown] at hmem2
      simp only [List.mem_cons] at hmem2
      rcases hmem2 with heq | hmem3
      · exact absurd heq (by simp)
      · split at hmem3 <;> simp only [List.mem_map] at hmem3 <;>
          obtain ⟨c, _, heq⟩ := hmem3 <;> exact absurd heq (by simp)
    · rw [if_neg hown] at hmem2
      exact absurd hmem2 (List.not_mem_nil _)
  · -- final gate wait
    simp only [List.mem_singleton] at h
    exact absurd h (by simp)

/-- Every slot an owner actually waits on has its designated writer among the
existing PEs, and that writer's program does contain the write. -/
theorem mail_write_exists (N G K l g i : ℕ) (hN : 1 ≤ N) (hG : 1 ≤ G) (hK : 2 ≤ K)
    (hl : l < LEVELS N G K) (hg : g < NUM_GROUPS N G K l) (hi : i < gsize N G K l g) :
    mailWriter G K l g i < N ∧
      Instr.write (Loc.mail l g i) ∈ hstarProgram N G K (mailWriter G K l g i) := by
  have hK1 : 1 ≤ K := by omega
  have hgs := gsize_eq_min N G K l g hG hK
  cases l with
  | zero =>
    rw [hgs, if_pos rfl] at hi
    have hiG : i < G := lt_of_lt_of_le hi (min_le_left _ _)
    have hiN : g * G + i < N := by
      have h2 : i < N - g * G := lt_of_lt_of_le hi (min_le_right _ _)
      omega
    have hwr : mailWriter G K 0 g i = g * G + i := by
      unfold mailWriter
      rw [if_pos rfl]
    obtain ⟨hdiv, hmod⟩ := div_mod_pack g G i hiG
    refine ⟨by rw [hwr]; exact hiN, ?_⟩
    rw [hwr]
    unfold hstarProgram
    apply List.mem_append_left
    apply List.mem_append_left
    apply List.mem_append_left
    apply List.mem_append_left
    rw [List.mem_singleton, hdiv, hmod]
  | succ l2 =>
    rw [hgs, if_neg (by omega)] at hi
    have hsimp : l2 + 1 - 1 = l2 := rfl
    rw [hsimp] at hi
    have hiK : i < K := lt_of_lt_of_le hi (min_le_left _ _)
    have hchild : g * K + i < NUM_GROUPS N G K l2 := by
      have h2 : i < NUM_GROUPS N G K l2 - g * K := lt_of_lt_of_le hi (min_le_right _ _)
      omega
    have hwr : mailWriter G K (l2 + 1) g i = static_group_owner_pe K G l2 (g * K + i) := by
      unfold mailWriter
      rw [if_neg (by omega), hsimp]
    have hwrN : static_group_owner_pe K G l2 (g * K + i) < N := by
      unfold static_group_owner_pe
      exact (lt_NUM_GROUPS_iff N G K l2 (g * K + i) hG hK1).mp hchild
    obtain ⟨hdiv, hmod⟩ := div_mod_pack g K i hiK
    refine ⟨by rw [hwr]; exact hwrN, ?_⟩
    rw [hwr]
    unfold hstarProgram
    apply List.mem_append_left
    apply List.mem_append_left
    apply List.mem_append_left
    apply List.mem_append_right
    simp only [List.mem_flatMap, List.mem_range]
    refine ⟨l2, by omega, ?_⟩
    rw [faninStep_owner N G K l2 (g * K + i) hG hK1]
    apply List.mem_append_right
    rw [if_pos (by omega : l2 + 1 < LEVELS N G K)]
    rw [List.mem_singleton, hdiv, hmod]

/-! ### Claim theorems -/

/-- C1: For every PE count `N >= 1` and every valid configuration (`G >= 1`,
`K >= 2`), with every PE publishing its local completion exactly once (each
PE's program contains exactly one leaf publish, its first instruction), in no
reachable execution state has any PE's wait on its own `global_gate`
completed (its program counter passed its final `wait_until` on the gate)
before all `N` PEs have performed their leaf publish of DONE_SENTINEL into
`child_mailbox[0][me/G][me mod G]`. -/
theorem hstar_gate_safety (N G K : ℕ) (hN : 1 ≤ N) (hG : 1 ≤ G) (hK : 2 ≤ K)
    (s : HState) (hreach : Reach N G K s) (p : ℕ) (hp : p < N)
    (hfin : (hstarProgram N G K p).length ≤ s.pc p) :
    ∀ q, q < N → 1 ≤ s.pc q ∧ s.done (Loc.mail 0 (q / G) (q % G)) = true :=
  hstar_safety_general N G K hN hG hK s hreach p hp hfin

theorem hstar_gate_safety_witness :
    1 ≤ wState6.pc 0 ∧ wState6.done (Loc.mail 0 (0 / 1) (0 % 1)) = true :=
  hstar_gate_safety 1 1 2 (by decide) (by decide) (by decide) wState6 wReach 0 (by decide)
    (by decide) 0 (by decide)

/-- C2: For all `N >= 1`, `G >= 1`, `K >= 2`, the planner computes
`groups[0] = ceil(N/G)` and `groups[l] = ceil(groups[l-1]/K)` (ceilings
expressed by their Galois characterization `groups ≤ n ↔ dividend ≤ n * divisor`),
`L` is the smallest index with `groups[L-1] = 1`, and `N <= G` gives `L = 1`
(with the single top-level group). -/
theorem planner_topology_correct (N G K : ℕ) (hN : 1 ≤ N) (hG : 1 ≤ G) (hK : 2 ≤ K) :
    NUM_GROUPS N G K 0 = ceil_div N G
    ∧ (∀ n, NUM_GROUPS N G K 0 ≤ n ↔ N ≤ n * G)
    ∧ (∀ l, 1 ≤ l → l < LEVELS N G K →
        NUM_GROUPS N G K l = ceil_div (NUM_GROUPS N G K (l - 1)) K
        ∧ ∀ n, NUM_GROUPS N G K l ≤ n ↔ NUM_GROUPS N G K (l - 1) ≤ n * K)
    ∧ NUM_GROUPS N G K (LEVELS N G K - 1) = 1
    ∧ (∀ m, 1 ≤ m → m < LEVELS N G K → NUM_GROUPS N G K (m - 1) ≠ 1)
    ∧ (N ≤ G → LEVELS N G K = 1) := by
  have hK1 : 1 ≤ K := by omega
  have hsp0 : group_span_at_level K G 0 = G := by
    simp [group_span_at_level, ipow]
  refine ⟨rfl, ?_, ?_, (NUM_GROUPS_top N G K hN hG hK).1, ?_, ?_⟩
  · intro n
    have h := NUM_GROUPS_le_iff N G K 0 n hG hK1
    rwa [hsp0] at h
  · intro l h1 h2
    obtain ⟨m, rfl⟩ : ∃ m, l = m + 1 := ⟨l - 1, by omega⟩
    exact ⟨rfl, fun n => ceil_div_le_iff (NUM_GROUPS N G K m) K n hK1⟩
  · intro m h1 h2
    have := (NUM_GROUPS_top N G K hN hG hK).2 (m - 1) (by omega)
    omega
  · intro hNG
    have hcd : ceil_div N G = 1 := by
      have hle := ceil_div_le_iff N G 1 hG
      have hlt := ceil_div_le_iff N G 0 hG
      omega
    unfold LEVELS
    rw [hcd]
    exact level_count_one K 1 (le_refl 1)

theorem planner_topology_correct_witness :
    NUM_GROUPS 70 8 8 0 = ceil_div 70 8
    ∧ NUM_GROUPS 70 8 8 (LEVELS 70 8 8 - 1) = 1
    ∧ LEVELS 5 8 8 = 1 :=
  ⟨(planner_topology_correct 70 8 8 (by decide) (by decide) (by decide)).1,
   (planner_topology_correct 70 8 8 (by decide) (by decide) (by decide)).2.2.2.1,
   (planner_topology_correct 5 8 8 (by decide) (by decide) (by decide)).2.2.2.2.2 (by decide)⟩

/-- C3: For every level `l` in `[0, L)` and every group index `g` at that
level, the canonical owner PE computed by the planner is `g * G * K^l` and
the PE-span of a level-`l` group is `G * K^l`. -/
theorem owner_span_formula (N G K : ℕ) (hG : 1 ≤ G) (hK : 2 ≤ K) (l g : ℕ)
    (hl : l < LEVELS N G K) (hg : g < NUM_GROUPS N G K l) :
    static_group_owner_pe K G l g = g * (G * K ^ l)
    ∧ group_span_at_level K G l = G * K ^ l := by
  constructor
  · unfold static_group_owner_pe
    rw [group_span_eq]
  · exact group_span_eq K G l

theorem owner_span_formula_witness :
    static_group_owner_pe 8 8 0 7 = 7 * (8 * 8 ^ 0)
    ∧ group_span_at_level 8 8 0 = 8 * 8 ^ 0 :=
  owner_span_formula 64 8 8 (by decide) (by decide) 0 7 (by decide) (by decide)

/-- C4: For every `N, G, K` (including non-divisible PE counts and group
counts), the owner of group `g` at level `l` waits on exactly `member_count`
slots, where `member_count = min(G, N - g*G)` at `l = 0` and
`min(K, groups[l-1] - g*K)` at `l >= 1`; its fan-in segment contains the wait
for slot `i` exactly when `i < member_count`, and its fan-out segment never
forwards to a child index at or beyond `member_count`, so tail owners do not
wait on nonexistent children. -/
theorem engine_wait_counts (N G K : ℕ) (hN : 1 ≤ N) (hG : 1 ≤ G) (hK : 2 ≤ K)
    (l g : ℕ) (hl : l < LEVELS N G K) (hg : g < NUM_GROUPS N G K l) :
    gsize N G K l g
      = (if l = 0 then min G (N - g * G) else min K (NUM_GROUPS N G K (l - 1) - g * K))
    ∧ (∀ i, Instr.wait (Loc.mail l g i) ∈ faninStep N G K (static_group_owner_pe K G l g) l
        ↔ i < gsize N G K l g)
    ∧ (∀ c, 0 < l →
        Instr.write (Loc.token (l - 1) (g * K + c))
            ∈ fanoutStep N G K (static_group_owner_pe K G l g) l →
          c < gsize N G K l g) := by
  have hK1 : 1 ≤ K := by omega
  refine ⟨gsize_eq_min N G K l g hG hK, ?_, ?_⟩
  · intro i
    rw [faninStep_owner N G K l g hG hK1]
    constructor
    · intro hmem
      rcases List.mem_append.mp hmem with h2 | h2
      · simp only [List.mem_map, List.mem_range] at h2
        obtain ⟨i2, hi2, heq⟩ := h2
        simp only [Instr.wait.injEq, Loc.mail.injEq] at heq
        omega
      · split at h2
        · simp at h2
        · exact absurd h2 (List.not_mem_nil _)
    · intro hi
      apply List.mem_append_left
      simp only [List.mem_map, List.mem_range]
      exact ⟨i, hi, rfl⟩
  · intro c h0l hmem
    rw [fanoutStep_owner N G K l g hG hK1] at hmem
    rcases List.mem_cons.mp hmem with heq | h2
    · exact absurd heq (by simp)
    · rw [if_pos h0l] at h2
      simp only [List.mem_map, List.mem_range] at h2
      obtain ⟨c2, hc2, heq⟩ := h2
      simp only [Instr.write.injEq, Loc.token.injEq] at heq
      omega

theorem engine_wait_counts_witness :
    Instr.wait (Loc.mail 0 8 5) ∈ faninStep 70 8 8 (static_group_owner_pe 8 8 0 8) 0
    ∧ Instr.wait (Loc.mail 0 8 6) ∉ faninStep 70 8 8 (static_group_owner_pe 8 8 0 8) 0 := by
  have h := engine_wait_counts 70 8 8 (by decide) (by decide) (by decide) 0 8
    (by decide) (by decide)
  constructor
  · exact (h.2.1 5).mpr (by decide)
  · intro hmem
    have h6 := (h.2.1 6).mp hmem
    revert h6
    decide

/-- C5: in the H-STAR protocol, every mailbox slot `child_mailbox[l][g][i]`
has a unique writer PE over the whole run — the member PE `g*G + i` at
`l = 0` and the owner of child group `g*K + i` at `l >= 1`: every program
that writes the slot belongs to that designated writer, no two distinct PEs
ever write the same slot, and for every slot within its group's actual
member count the designated writer exists (`< N`) and does write it. -/
theorem mailbox_single_writer (N G K : ℕ) (hN : 1 ≤ N) (hG : 1 ≤ G) (hK : 2 ≤ K) :
    (∀ p l g i, p < N → Instr.write (Loc.mail l g i) ∈ hstarProgram N G K p →
        p = mailWriter G K l g i)
    ∧ (∀ p1 p2 l g i, p1 < N → p2 < N →
        Instr.write (Loc.mail l g i) ∈ hstarProgram N G K p1 →
        Instr.write (Loc.mail l g i) ∈ hstarProgram N G K p2 → p1 = p2)
    ∧ (∀ l g i, l < LEVELS N G K → g < NUM_GROUPS N G K l → i < gsize N G K l g →
        mailWriter G K l g i < N
        ∧ Instr.write (Loc.mail l g i) ∈ hstarProgram N G K (mailWriter G K l g i)) := by
  refine ⟨?_, ?_, ?_⟩
  · intro p l g i _ hmem
    exact mail_write_characterize N G K p l g i hG hK hmem
  · intro p1 p2 l g i _ _ h1 h2
    rw [mail_write_characterize N G K p1 l g i hG hK h1,
      mail_write_characterize N G K p2 l g i hG hK h2]
  · intro l g i hl hg hi
    exact mail_write_exists N G K l g i hN hG hK hl hg hi

theorem mailbox_single_writer_witness :
    mailWriter 8 8 1 0 1 < 70
    ∧ Instr.write (Loc.mail 1 0 1) ∈ hstarProgram 70 8 8 (mailWriter 8 8 1 0 1) :=
  (mailbox_single_writer 70 8 8 (by decide) (by decide) (by decide)).2.2 1 0 1
    (by decide) (by decide) (by decide)

/-- C6: protocol state only moves upward in the order
0 (`false`) -> DONE_SENTINEL (`true`): along any execution of the H-STAR
system every mailbox/token/gate value is non-decreasing and no slot is ever
reset, so once any PE has observed DONE_SENTINEL in a slot (in particular
the gate), every later read of that slot yields DONE_SENTINEL; and in the
dynamic-leader variant the leaf counter is non-decreasing and the group-done
flag, once set, stays set. -/
theorem monotone_protocol_state (N G K : ℕ) :
    (∀ s s2 : HState, Relation.ReflTransGen (Step N G K) s s2 →
        ∀ loc, s.done loc ≤ s2.done loc)
    ∧ (∀ s s2 : HState, Relation.ReflTransGen (Step N G K) s s2 →
        ∀ pe, s.done (Loc.gate pe) = true → s2.done (Loc.gate pe) = true)
    ∧ (∀ m : ℕ, ∀ d d2 : DynState, Relation.ReflTransGen (DynStep m) d d2 →
        d.counter ≤ d2.counter ∧ (d.flagDone = true → d2.flagDone = true)) := by
  refine ⟨fun s s2 h loc => steps_done_mono N G K s s2 h loc, ?_, ?_⟩
  · intro s s2 h pe hg
    have hle := steps_done_mono N G K s s2 h (Loc.gate pe)
    rw [hg] at hle
    cases hb : s2.done (Loc.gate pe)
    · rw [hb] at hle
      exact absurd hle (by decide)
    · rfl
  · intro m d d2 h
    exact dynSteps_counter_mono m d d2 h

theorem monotone_protocol_state_witness :
    initState.done (Loc.mail 0 0 0) ≤ wState1.done (Loc.mail 0 0 0)
    ∧ wState1.done (Loc.mail 0 0 0) = true :=
  ⟨(monotone_protocol_state 1 1 2).1 initState wState1
      (Relation.ReflTransGen.single (Step.write initState 0 (Loc.mail 0 0 0)
        (by decide) (by decide))) (Loc.mail 0 0 0),
   by decide⟩

/-- C7 (evaluation of the code at the failing schedule): in the
dynamic-leader variant a leaf group of actual size 2 can reach a state in
which member 0 has incremented the leaf counter twice and become leaf leader
while member 1 has incremented once, the counter having reached 3 — the
increment sits inside the unbounded polling loop, so it is not performed
exactly once per member, the counter does not stop at the group size, and
the leader need not be the last finisher. -/
theorem dynamic_leaf_counter_overcount :
    DynReach 2 dState6
    ∧ dState6.incs 0 = 2
    ∧ dState6.incs 1 = 1
    ∧ dState6.counter = 3
    ∧ dState6.leader = some 0
    ∧ dState6.flagDone = true :=
  ⟨dReach, by decide, by decide, by decide, by decide, by decide⟩

/-- C8 counterexample: in the modelled `main` sequences of both the H-STAR
and STAR variants there is no global barrier positioned after the symmetric
allocation/initialization and before the first remote put (the only barrier
call before the protocol run precedes the allocation), already at `N = 2`,
`G = 2` (PE 1's first action is a remote put to PE 0). -/
theorem no_barrier_between_init_and_first_remote :
    ¬ barrierBetween (hstarMainEvents 2 2 2 1)
    ∧ (hstarMainEvents 2 2 2 1).get? 1 = some MainEv.symmetricAllocInit
    ∧ (hstarMainEvents 2 2 2 1).get? 2 = some MainEv.remotePut
    ∧ ¬ barrierBetween (starMainEvents 2 2 1)
    ∧ (starMainEvents 2 2 1).get? 1 = some MainEv.symmetricAllocInit
    ∧ (starMainEvents 2 2 1).get? 2 = some MainEv.remotePut := by
  decide

/-- C8 amended: in every run the global barrier call comes before the
symmetric protocol state is allocated and initialized (it is the timing
alignment barrier), and between the allocation/initialization and the final
barrier of the run no further global barrier occurs — in particular none
between initialization and the first remote operation; the synchronization
making this safe is the collective `shmem_malloc` allocation itself. -/
theorem barrier_precedes_allocation (N G K me : ℕ) :
    (hstarMainEvents N G K me).get? 0 = some MainEv.barrierAll
    ∧ (hstarMainEvents N G K me).get? 1 = some MainEv.symmetricAllocInit
    ∧ MainEv.barrierAll ∉ (hstarProgram N G K me).map (instrEvent K G me)
    ∧ (starMainEvents N G me).get? 0 = some MainEv.barrierAll
    ∧ (starMainEvents N G me).get? 1 = some MainEv.symmetricAllocInit
    ∧ MainEv.barrierAll ∉ starRunEvents N G me := by
  refine ⟨rfl, rfl, ?_, rfl, rfl, ?_⟩
  · intro hmem
    simp only [List.mem_map] at hmem
    obtain ⟨instr, _, heq⟩ := hmem
    cases instr with
    | write loc =>
      have heq2 : (if locHost K G loc = me then MainEv.localStore else MainEv.remotePut)
          = MainEv.barrierAll := heq
      split at heq2 <;> exact MainEv.noConfusion heq2
    | wait loc => exact MainEv.noConfusion heq
  · intro hmem
    unfold starRunEvents at hmem
    simp only [List.mem_append] at hmem
    rcases hmem with ((h | h) | h) | h
    · rw [List.mem_singleton] at h
      split at h <;> exact MainEv.noConfusion h
    · split at h
      · rcases List.mem_append.mp h with h2 | h2
        · exact MainEv.noConfusion (List.eq_of_mem_replicate h2)
        · rw [List.mem_singleton] at h2
          split at h2 <;> exact MainEv.noConfusion h2
      · exact absurd h (List.not_mem_nil _)
    · split at h
      · rcases List.mem_append.mp h with h2 | h2
        · exact MainEv.noConfusion (List.eq_of_mem_replicate h2)
        · simp only [List.mem_map] at h2
          obtain ⟨pe, _, heq⟩ := h2
          split at heq <;> exact MainEv.noConfusion heq
      · exact absurd h (List.not_mem_nil _)
    · rw [List.mem_singleton] at h
      exact MainEv.noConfusion h

/-- C9 counterexample: `"12x"` is not a valid numeric string, yet it does not
yield the default 8 — `atoi` parses its leading digits and both `G` and `K`
become 12. -/
theorem invalid_numeric_accepted :
    specValidNumeric ['1', '2', 'x'] = false
    ∧ env_group_size (some ['1', '2', 'x']) = 12
    ∧ env_branch_k (some ['1', '2', 'x']) = 12 := by
  decide

/-- C9 amended: absent or empty environment strings yield the defaults
(`G = 8`, `K = 8`); strings with no parseable leading integer give `atoi = 0`
and hence the default; out-of-range results (`G < 1`, `K < 2`) silently
coerce to the defaults; and a string with a parseable leading integer in
range uses that value even when trailing non-numeric characters make the
whole string invalid. -/
theorem env_defaults_amended :
    env_group_size none = 8 ∧ env_group_size (some []) = 8
    ∧ env_branch_k none = 8 ∧ env_branch_k (some []) = 8
    ∧ (∀ s, noParse s = true → env_group_size (some s) = 8 ∧ env_branch_k (some s) = 8)
    ∧ (∀ s, c_atoi s < 1 → env_group_size (some s) = 8)
    ∧ (∀ s, c_atoi s < 2 → env_branch_k (some s) = 8)
    ∧ (∀ s, s ≠ [] → 1 ≤ c_atoi s → env_group_size (some s) = c_atoi s)
    ∧ (∀ s, s ≠ [] → 2 ≤ c_atoi s → env_branch_k (some s) = c_atoi s) := by
  have hgs : ∀ s : List Char, env_group_size (some s)
      = if s = [] then 8 else (if 1 ≤ c_atoi s then c_atoi s else 8) := fun s => rfl
  have hbk : ∀ s : List Char, env_branch_k (some s)
      = if s = [] then 8 else (if 2 ≤ c_atoi s then c_atoi s else 8) := fun s => rfl
  refine ⟨rfl, by decide, rfl, by decide, ?_, ?_, ?_, ?_, ?_⟩
  · intro s h
    have h0 := c_atoi_of_noParse s h
    constructor
    · rw [hgs s]
      by_cases hs : s = []
      · rw [if_pos hs]
      · rw [if_neg hs, if_neg (by omega)]
    · rw [hbk s]
      by_cases hs : s = []
      · rw [if_pos hs]
      · rw [if_neg hs, if_neg (by omega)]
  · intro s h0
    rw [hgs s]
    by_cases hs : s = []
    · rw [if_pos hs]
    · rw [if_neg hs, if_neg (by omega)]
  · intro s h0
    rw [hbk s]
    by_cases hs : s = []
    · rw [if_pos hs]
    · rw [if_neg hs, if_neg (by omega)]
  · intro s hs h1
    rw [hgs s, if_neg hs, if_pos h1]
  · intro s hs h2
    rw [hbk s, if_neg hs, if_pos h2]

theorem env_defaults_amended_witness :
    env_group_size (some ['x', 'y']) = 8 ∧ env_branch_k (some ['1']) = 8 :=
  ⟨(env_defaults_amended.2.2.2.2.1 ['x', 'y'] (by decide)).1,
   env_defaults_amended.2.2.2.2.2.2.1 ['1'] (by decide)⟩

/-- C10: in every variant debug logging is enabled exactly when the
environment variable is set to a non-empty string whose first character is
not '0'; in particular "01" disables debug while "false" enables it. -/
theorem debug_flag_characterization :
    (∀ e : Option (List Char),
      env_debug_enabled e = true ↔ ∃ c r, e = some (c :: r) ∧ c ≠ '0')
    ∧ env_debug_enabled (some ['0', '1']) = false
    ∧ env_debug_enabled (some ['f', 'a', 'l', 's', 'e']) = true := by
  have hdbg : ∀ (c : Char) (r : List Char),
      env_debug_enabled (some (c :: r)) = if c = '0' then false else true := fun c r => rfl
  refine ⟨?_, by decide, by decide⟩
  intro e
  constructor
  · intro h
    match e with
    | none => exact absurd h (by decide)
    | some [] => exact absurd h (by decide)
    | some (c :: r) =>
      refine ⟨c, r, rfl, ?_⟩
      intro hc
      rw [hdbg c r, if_pos hc] at h
      exact absurd h (by decide)
  · rintro ⟨c, r, rfl, hc⟩
    rw [hdbg c r, if_neg hc]
